import Mathlib

/-!
Verification of the `allow-me` authorization engine.

The Rust sources are shallowly embedded here:
* `src/policy/mod.rs` — the `Policy` data type, the two-phase evaluation
  (`evaluate`, `eval_static_rules`, `eval_variable_rules`), the rule-index
  containers `Identities`/`Operations`/`Resources` (sorted string maps,
  modelling `BTreeMap<String, _>`), `Request`, `Decision`, `Effect`,
  `EffectOrd`.
* `src/policy/builder.rs` — the statement classifier
  (`process_statement`, `process_identities`, `process_operations`,
  `process_resources`, `is_variable_rule`) and `PolicyBuilder::build`
  (JSON deserialization is external and out of scope; `build` is modelled
  from the point where the statement list is available and positions are
  assigned as priorities).
* `src/substituter.rs` — `VariableIter`, the `replace_*` helpers and the
  `DefaultSubstituter`.
* `src/matcher.rs` — the default (equality) and starts-with matchers.

Rust `BTreeMap<String, V>` is modelled as a list of key-value pairs kept
sorted by key; iteration order of the model list corresponds to the map's
ascending key order, and `SMap.Sorted` states that invariant.  Rust strings
are compared byte-wise on their UTF-8 encoding, which coincides with the
code-point order used by Lean's `String` order.  Inside the substituter,
Rust byte indices are modelled as `List Char` indices: all searched
delimiters are two ASCII characters, so byte positions and character
positions are related by a strictly monotone correspondence that both
slicings respect.
-/

/-- `Effect` from `src/policy/mod.rs`. -/
inductive Effect where
  | allow
  | deny
  | undefined
deriving DecidableEq, Repr

/-- `Decision` from `src/policy/mod.rs`. -/
inductive Decision where
  | allowed
  | denied
deriving DecidableEq, Repr

/-- `Error` variants reachable from the embedded code (`src/errors.rs`). -/
inductive Error where
  | badRequest (msg : String)
  | validationError (msg : String)
deriving DecidableEq, Repr

/-- `From<Effect> for Decision` in `src/policy/mod.rs`. -/
def Effect.toDecision : Effect → Decision
  | .allow => .allowed
  | .deny => .denied
  | .undefined => .denied

/-- `Request` from `src/policy/mod.rs`. -/
structure Request where
  identity : String
  operation : String
  resource : String
deriving DecidableEq, Repr

/-- `Request::new` from `src/policy/mod.rs`. -/
def Request.new (identity operation resource : String) : Except Error Request :=
  if identity.isEmpty then .error (.badRequest "Identity must be specified")
  else if operation.isEmpty then .error (.badRequest "Operation must be specified")
  else .ok ⟨identity, operation, resource⟩

/-- `EffectOrd` from `src/policy/mod.rs`: an effect together with the
priority (list position) of the statement that produced it. -/
structure EffectOrd where
  order : Nat
  effect : Effect
deriving DecidableEq, Repr

/-- `EffectOrd::new`. -/
def EffectOrd.new (effect : Effect) (order : Nat) : EffectOrd := ⟨order, effect⟩

/-- `EffectOrd::merge`: the entry with the lower order (higher priority)
survives; on equal orders the existing entry is kept. -/
def EffectOrd.merge (self item : EffectOrd) : EffectOrd :=
  if self.order > item.order then item else self

/-- Strict lexicographic order on character lists, by code point.  This is
the order of Rust's `Ord for String` (byte-wise on UTF-8, which agrees
with code-point order), used by `BTreeMap<String, _>`. -/
def ltChars : List Char → List Char → Bool
  | [], [] => false
  | [], _ :: _ => true
  | _ :: _, [] => false
  | a :: as, b :: bs =>
    if a.val < b.val then true
    else if b.val < a.val then false
    else ltChars as bs

/-- The key order of the rule indexes. -/
def strLt (a b : String) : Bool := ltChars a.data b.data

/-- Model of `BTreeMap<String, α>`: a key-value list kept sorted by key. -/
abbrev SMap (α : Type) : Type := List (String × α)

/-- `BTreeMap::get`. -/
def SMap.get? {α : Type} : SMap α → String → Option α
  | [], _ => none
  | (k₁, v₁) :: rest, k => if k = k₁ then some v₁ else SMap.get? rest k

/-- `BTreeMap`'s `entry` API as used by the `insert` methods of
`Identities`/`Operations`/`Resources`: insert at the sorted position,
combining with `f old new` when the key is already present. -/
def SMap.insertWith {α : Type} (f : α → α → α) (k : String) (v : α) :
    SMap α → SMap α
  | [] => [(k, v)]
  | (k₁, v₁) :: rest =>
    if strLt k k₁ then (k, v) :: (k₁, v₁) :: rest
    else if k = k₁ then (k₁, f v₁ v) :: rest
    else (k₁, v₁) :: SMap.insertWith f k v rest

/-- The common shape of `Identities::insert`/`Operations::insert`
(`Resources::insert` uses `iE := fun _ => false`): entries whose value is
empty are dropped rather than inserted. -/
def SMap.insertSkip {α : Type} (f : α → α → α) (iE : α → Bool)
    (m : SMap α) (k : String) (v : α) : SMap α :=
  if iE v then m else SMap.insertWith f k v m

/-- The common shape of the `merge` methods: iterate the incoming map's
entries in order and insert each one. -/
def SMap.mergeSkip {α : Type} (f : α → α → α) (iE : α → Bool)
    (m collection : SMap α) : SMap α :=
  collection.foldl (fun acc kv => SMap.insertSkip f iE acc kv.1 kv.2) m

/-- Keys strictly increase along the list: the `BTreeMap` invariant. -/
def SMap.Sorted {α : Type} (m : SMap α) : Prop :=
  List.Pairwise (fun a b => strLt a.1 b.1 = true) m

instance {α : Type} (m : SMap α) : Decidable (SMap.Sorted m) :=
  inferInstanceAs (Decidable (List.Pairwise _ m))

/-- `Resources` from `src/policy/mod.rs`. -/
abbrev Resources : Type := SMap EffectOrd

/-- `Resources::insert`: merge effects on key collision. -/
def Resources.insert (m : Resources) (resource : String) (effect : EffectOrd) :
    Resources :=
  SMap.insertWith EffectOrd.merge resource effect m

/-- `Resources::merge`. -/
def Resources.merge (m collection : Resources) : Resources :=
  collection.foldl (fun acc kv => Resources.insert acc kv.1 kv.2) m

/-- `Operations` from `src/policy/mod.rs`. -/
abbrev Operations : Type := SMap Resources

/-- `Operations::insert`: empty resource sub-maps are dropped. -/
def Operations.insert (m : Operations) (operation : String)
    (resources : Resources) : Operations :=
  if resources.isEmpty then m
  else SMap.insertWith Resources.merge operation resources m

/-- `Operations::merge`. -/
def Operations.merge (m collection : Operations) : Operations :=
  collection.foldl (fun acc kv => Operations.insert acc kv.1 kv.2) m

/-- `Identities` from `src/policy/mod.rs`. -/
abbrev Identities : Type := SMap Operations

/-- `Identities::insert`: empty operation sub-maps are dropped. -/
def Identities.insert (m : Identities) (identity : String)
    (operations : Operations) : Identities :=
  if operations.isEmpty then m
  else SMap.insertWith Operations.merge identity operations m

/-- `Identities::merge`. -/
def Identities.merge (m collection : Identities) : Identities :=
  collection.foldl (fun acc kv => Identities.insert acc kv.1 kv.2) m

/-- The `Substituter` trait (`src/substituter.rs`), as a record of its
three capabilities. -/
structure Substituter where
  visit_identity : String → Request → Except Error String
  visit_operation : String → Request → Except Error String
  visit_resource : String → Request → Except Error String

/-- `Policy` from `src/policy/mod.rs`.  The generic matcher parameter `R`
is modelled by the `resource_matcher` function field
(`do_match(request, input, pattern)`), the generic `S` by `substituter`. -/
structure Policy where
  default_decision : Decision
  resource_matcher : Request → String → String → Bool
  substituter : Substituter
  static_rules : Identities
  variable_rules : Identities

/-- The `for` loop over the resource sub-map inside
`Policy::eval_static_rules`: first matching pattern wins. -/
def staticResourceScan (p : Policy) (request : Request) : Resources → Effect
  | [] => .undefined
  | (resource, effect) :: rest =>
    if p.resource_matcher request request.resource resource then effect.effect
    else staticResourceScan p request rest

/-- `Policy::eval_static_rules` from `src/policy/mod.rs`. -/
def Policy.eval_static_rules (p : Policy) (request : Request) :
    Except Error Effect :=
  match SMap.get? p.static_rules request.identity with
  | some operations =>
    match SMap.get? operations request.operation with
    | some resources => .ok (staticResourceScan p request resources)
    | none => .ok .undefined
  | none => .ok .undefined

/-- The resource loop inside `Policy::eval_variable_rules`: each pattern is
resolved through `visit_resource` (errors propagate) before matching. -/
def variableResourceScan (p : Policy) (request : Request) :
    Resources → Except Error Effect
  | [] => .ok .undefined
  | (resource, effect) :: rest =>
    match p.substituter.visit_resource resource request with
    | .error e => .error e
    | .ok resource' =>
      if p.resource_matcher request request.resource resource' then
        .ok effect.effect
      else variableResourceScan p request rest

/-- The identity loop inside `Policy::eval_variable_rules`: the first
identity key whose resolution equals the request identity determines the
result (`return match ...` exits the loop). -/
def variableIdentityScan (p : Policy) (request : Request) :
    Identities → Except Error Effect
  | [] => .ok .undefined
  | (identity, operations) :: rest =>
    match p.substituter.visit_identity identity request with
    | .error e => .error e
    | .ok identity' =>
      if identity' = request.identity then
        match SMap.get? operations request.operation with
        | some resources => variableResourceScan p request resources
        | none => .ok .undefined
      else variableIdentityScan p request rest

/-- `Policy::eval_variable_rules` from `src/policy/mod.rs`. -/
def Policy.eval_variable_rules (p : Policy) (request : Request) :
    Except Error Effect :=
  variableIdentityScan p request p.variable_rules

/-- `Policy::evaluate` from `src/policy/mod.rs`. -/
def Policy.evaluate (p : Policy) (request : Request) : Except Error Decision :=
  match p.eval_static_rules request with
  | .ok .deny => .ok .denied
  | .ok .allow =>
    match p.eval_variable_rules request with
    | .ok .undefined => .ok .allowed
    | .ok effect => .ok effect.toDecision
    | .error e => .error e
  | .ok .undefined =>
    match p.eval_variable_rules request with
    | .ok .undefined => .ok p.default_decision
    | .ok effect => .ok effect.toDecision
    | .error e => .error e
  | .error e => .error e

/-- `"{{"` (written with escapes), the opening variable delimiter. -/
def obrace : List Char := "\x7b\x7b".data

/-- `"}}"`, the closing variable delimiter. -/
def cbrace : List Char := "\x7d\x7d".data

/-- `ANY_VAR` from `src/substituter.rs`. -/
def ANY_VAR : List Char := "\x7b\x7bany\x7d\x7d".data

/-- `IDENTITY_VAR` from `src/substituter.rs`. -/
def IDENTITY_VAR : List Char := "\x7b\x7bidentity\x7d\x7d".data

/-- `OPERATION_VAR` from `src/substituter.rs`. -/
def OPERATION_VAR : List Char := "\x7b\x7boperation\x7d\x7d".data

/-- `str::find(pattern)`: index of the first occurrence of `needle`, if
any. -/
def findSub (needle : List Char) : List Char → Option Nat
  | [] => if needle.isEmpty then some 0 else none
  | c :: rest =>
    if List.isPrefixOf needle (c :: rest) then some 0
    else match findSub needle rest with
      | some i => some (i + 1)
      | none => none

/-- `str::contains(pattern)`. -/
def containsSub (needle hay : List Char) : Bool :=
  (findSub needle hay).isSome

/-- `VariableIter` from `src/substituter.rs`: a cursor into the scanned
string. -/
structure VariableIter where
  value : List Char
  index : Nat
deriving DecidableEq, Repr

/-- `VariableIter::next`: on the suffix starting at `index`, find the
first opening and the first closing delimiter; when the opening one comes
first, yield the slice between them and advance past the closing one. -/
def VariableIter.next (it : VariableIter) : Option (List Char × VariableIter) :=
  let value := it.value.drop it.index
  match findSub obrace value with
  | some start =>
    match findSub cbrace value with
    | some e =>
      if start < e then
        some (((value.drop start).take (e + 2 - start)),
          ⟨it.value, it.index + e + 2⟩)
      else none
    | none => none
  | none => none

/-- Exhausting the iterator: the list of items the `for` loops in
`replace_identity`/`replace_operation`/`replace_resource` see. -/
def collectVars (it : VariableIter) : List (List Char) :=
  match h : it.next with
  | some (v, it') => v :: collectVars it'
  | none => []
termination_by (it.value.drop it.index).length
decreasing_by
  simp only [VariableIter.next] at h
  split at h
  case h_2 => exact absurd h (by simp)
  case h_1 start heq =>
    split at h
    case h_2 => exact absurd h (by simp)
    case h_1 e heq2 =>
      split at h
      case isFalse => exact absurd h (by simp)
      case isTrue hlt =>
        cases h
        have hne : it.value.drop it.index ≠ [] := by
          intro hnil
          rw [hnil] at heq
          simp [findSub, obrace] at heq
        have hpos : 0 < (it.value.drop it.index).length :=
          List.length_pos.mpr hne
        simp only [List.length_drop] at hpos ⊢
        omega

/-- `str::replace(pat, sub)`: replace every non-overlapping occurrence,
scanning left to right.  (The empty-pattern guard is never exercised by
the callers: every pattern produced by `VariableIter` contains the opening
delimiter.) -/
def replaceAll (s pat sub : List Char) : List Char :=
  match s with
  | [] => []
  | c :: rest =>
    if h : pat ≠ [] ∧ List.isPrefixOf pat (c :: rest) then
      sub ++ replaceAll ((c :: rest).drop pat.length) pat sub
    else c :: replaceAll rest pat sub
termination_by s.length
decreasing_by
  · simp only [List.length_drop]
    have : pat.length ≠ 0 := fun hz => h.1 (List.length_eq_zero.mp hz)
    simp
    omega
  · simp

/-- `replace_identity` from `src/substituter.rs`. -/
def replace_identity (value : List Char) (context : Request) : List Char :=
  (collectVars ⟨value, 0⟩).foldl
    (fun result variable_ =>
      if variable_ = ANY_VAR ∨ variable_ = IDENTITY_VAR then
        replaceAll result variable_ context.identity.data
      else result)
    value

/-- `replace_operation` from `src/substituter.rs`. -/
def replace_operation (value : List Char) (context : Request) : List Char :=
  (collectVars ⟨value, 0⟩).foldl
    (fun result variable_ =>
      if variable_ = ANY_VAR ∨ variable_ = OPERATION_VAR then
        replaceAll result variable_ context.operation.data
      else if variable_ = IDENTITY_VAR then
        replaceAll result variable_ context.identity.data
      else result)
    value

/-- `replace_resource` from `src/substituter.rs`. -/
def replace_resource (value : List Char) (context : Request) : List Char :=
  (collectVars ⟨value, 0⟩).foldl
    (fun result variable_ =>
      if variable_ = ANY_VAR then
        replaceAll result variable_ context.resource.data
      else if variable_ = IDENTITY_VAR then
        replaceAll result variable_ context.identity.data
      else if variable_ = OPERATION_VAR then
        replaceAll result variable_ context.operation.data
      else result)
    value

/-- `DefaultSubstituter` from `src/substituter.rs`: all three visit
methods are total and always return `Ok`. -/
def DefaultSubstituter : Substituter where
  visit_identity := fun value context =>
    .ok (String.mk (replace_identity value.data context))
  visit_operation := fun value context =>
    .ok (String.mk (replace_operation value.data context))
  visit_resource := fun value context =>
    .ok (String.mk (replace_resource value.data context))

/-- The default equality matcher (`matcher::Default`). -/
def DefaultResourceMatcher : Request → String → String → Bool :=
  fun _context input policy => input = policy

/-- The starts-with matcher (`matcher::StartsWith`): `input` starts with
the pattern (byte prefixes of UTF-8 strings are exactly character-list
prefixes). -/
def StartsWithMatcher : Request → String → String → Bool :=
  fun _context input policy => List.isPrefixOf policy.data input.data

/-- `Effect20201030` from `src/policy/builder.rs` (the effect field of a
parsed statement; only allow/deny are representable). -/
inductive Effect20201030 where
  | allow
  | deny
deriving DecidableEq, Repr

/-- `Statement20201030` from `src/policy/builder.rs`. -/
structure Statement20201030 where
  order : Nat
  description : String
  effect : Effect20201030
  identities : List String
  operations : List String
  resources : List String
deriving DecidableEq, Repr

/-- `Into<EffectOrd> for &Statement20201030`. -/
def Statement20201030.effectOrd (s : Statement20201030) : EffectOrd :=
  match s.effect with
  | .allow => EffectOrd.new .allow s.order
  | .deny => EffectOrd.new .deny s.order

/-- `is_variable_rule` from `src/policy/builder.rs`: the pattern contains
the opening delimiter (`value.contains` of two opening braces); the closing
delimiter is not examined. -/
def is_variable_rule (value : String) : Bool :=
  containsSub obrace value.data

/-- `process_resources` from `src/policy/builder.rs`: split the statement's
resource patterns into the static and the variable resource map. -/
def process_resources (statement : Statement20201030) :
    Resources × Resources :=
  statement.resources.foldl
    (fun acc resource =>
      if is_variable_rule resource then
        (acc.1, Resources.insert acc.2 resource statement.effectOrd)
      else
        (Resources.insert acc.1 resource statement.effectOrd, acc.2))
    ([], [])

/-- `process_operations` from `src/policy/builder.rs`: a variable operation
re-homes the union of both resource maps into the variable operation map;
a static operation files the static resources under the static map and the
variable resources under the variable map. -/
def process_operations (statement : Statement20201030) :
    Operations × Operations :=
  statement.operations.foldl
    (fun acc operation =>
      let res := process_resources statement
      if is_variable_rule operation then
        (acc.1, Operations.insert acc.2 operation (Resources.merge res.1 res.2))
      else
        (Operations.insert acc.1 operation res.1,
          Operations.insert acc.2 operation res.2))
    ([], [])

/-- `process_identities` from `src/policy/builder.rs`: the same split one
level up, over the statement's identity patterns. -/
def process_identities (statement : Statement20201030) :
    Identities × Identities :=
  statement.identities.foldl
    (fun acc identity =>
      let ops := process_operations statement
      if is_variable_rule identity then
        (acc.1, Identities.insert acc.2 identity (Operations.merge ops.1 ops.2))
      else
        (Identities.insert acc.1 identity ops.1,
          Identities.insert acc.2 identity ops.2))
    ([], [])

/-- `process_statement` from `src/policy/builder.rs`: merge one statement's
two fragments into the policy-wide rule maps. -/
def process_statement (statement : Statement20201030)
    (rules : Identities × Identities) : Identities × Identities :=
  let frags := process_identities statement
  (Identities.merge rules.1 frags.1, Identities.merge rules.2 frags.2)

/-- The priority assignment in `PolicyBuilder::build`: `statement.order`
is set to the statement's zero-based position in the list. -/
def assignOrders : Nat → List Statement20201030 → List Statement20201030
  | _, [] => []
  | n, s :: rest => { s with order := n } :: assignOrders (n + 1) rest

/-- The statement list with positions assigned as priorities. -/
def withOrders (statements : List Statement20201030) :
    List Statement20201030 :=
  assignOrders 0 statements

/-- The rule-compilation loop of `PolicyBuilder::build`: process every
statement in list order, starting from two empty rule maps. -/
def buildRules (statements : List Statement20201030) :
    Identities × Identities :=
  (withOrders statements).foldl (fun acc s => process_statement s acc) ([], [])

/-- `PolicyBuilder::build` from `src/policy/builder.rs`, modelled from the
point where the statement list has been deserialized (JSON parsing is an
external collaborator). -/
def PolicyBuilder.build (statements : List Statement20201030)
    (matcher : Request → String → String → Bool) (substituter : Substituter)
    (default_decision : Decision) : Policy :=
  let rules := buildRules statements
  { default_decision := default_decision
    resource_matcher := matcher
    substituter := substituter
    static_rules := rules.1
    variable_rules := rules.2 }

/-- Path lookup inside an `Operations` map: operation key, then resource
key. -/
def Operations.find (m : Operations) (o r : String) : Option EffectOrd :=
  (SMap.get? m o).bind fun res => SMap.get? res r

/-- Path lookup inside an `Identities` rule map: identity key, operation
key, resource key.  This is the "stored at key" view used to state the
compilation invariants. -/
def Identities.find (m : Identities) (i o r : String) : Option EffectOrd :=
  (SMap.get? m i).bind fun ops => Operations.find ops o r

/-- Well-formedness of an `Operations` map: sorted, and every resource
sub-map sorted. -/
def OperationsWF (m : Operations) : Prop :=
  SMap.Sorted m ∧ ∀ kv ∈ m, SMap.Sorted kv.2

/-- Well-formedness of an `Identities` map: sorted at every level. -/
def IdentitiesWF (m : Identities) : Prop :=
  SMap.Sorted m ∧ ∀ kv ∈ m, OperationsWF kv.2

/-- No operation key maps to an empty resource sub-map. -/
def OperationsNE (m : Operations) : Prop :=
  ∀ kv ∈ m, kv.2 ≠ []

/-- No identity key maps to an empty or degenerate operations sub-map. -/
def IdentitiesNE (m : Identities) : Prop :=
  ∀ kv ∈ m, kv.2 ≠ [] ∧ OperationsNE kv.2

/-- Both rule maps of a policy are well-formed sorted indexes (true of
every policy produced by `PolicyBuilder.build`). -/
def PolicyWF (p : Policy) : Prop :=
  IdentitiesWF p.static_rules ∧ IdentitiesWF p.variable_rules

/-- Merging of optional entries at the same key. -/
def combineO {α : Type} (f : α → α → α) : Option α → Option α → Option α
  | some a, some b => some (f a b)
  | some a, none => some a
  | none, b => b

/-- The static fragment a single statement contributes, looked up at a
path. -/
def staticContribution (s : Statement20201030) (i o r : String) :
    Option EffectOrd :=
  Identities.find (process_identities s).1 i o r

/-- The variable fragment a single statement contributes, looked up at a
path. -/
def variableContribution (s : Statement20201030) (i o r : String) :
    Option EffectOrd :=
  Identities.find (process_identities s).2 i o r

/-- Reference combine table of §4.4 step 3 of the specification, over the
static-phase effect, the variable-phase effect and the default decision. -/
def specCombine (se ve : Effect) (dd : Decision) : Decision :=
  match se, ve with
  | .deny, _ => .denied
  | .allow, .undefined => .allowed
  | .allow, .allow => .allowed
  | .allow, .deny => .denied
  | .undefined, .undefined => dd
  | .undefined, .allow => .allowed
  | .undefined, .deny => .denied

/-- Reference static phase, written from the specification's words: look
up the identity (absent yields Undefined), then the operation, then return
the stored effect of the first candidate pattern in key order that the
matcher accepts. -/
def specStaticPhase (p : Policy) (r : Request) : Effect :=
  match SMap.get? p.static_rules r.identity with
  | none => .undefined
  | some ops =>
    match SMap.get? ops r.operation with
    | none => .undefined
    | some res =>
      match res.find? (fun c => p.resource_matcher r r.resource c.1) with
      | some c => c.2.effect
      | none => .undefined

/-- Reference variable phase, written from the specification's words for a
substituter whose visit methods are the pure functions `vid`/`vres`: the
first identity key (in key order) whose resolution equals the request
identity fully determines the result; under it the operation is looked up
by its raw key, and the resource sub-map is scanned in key order with
resolution applied before matching. -/
def specVariablePhase (p : Policy) (r : Request)
    (vid vres : String → String) : Effect :=
  match p.variable_rules.find? (fun c => vid c.1 = r.identity) with
  | none => .undefined
  | some c =>
    match SMap.get? c.2 r.operation with
    | none => .undefined
    | some res =>
      match res.find? (fun rc => p.resource_matcher r r.resource (vres rc.1)) with
      | some rc => rc.2.effect
      | none => .undefined

/-- Claim-side classifier test: the pattern contains a variable marker
delimited by the opening and the closing delimiter (an opening delimiter
with a closing delimiter somewhere after it). -/
def containsMarker (value : String) : Bool :=
  match findSub obrace value.data with
  | some i => containsSub cbrace (value.data.drop (i + 2))
  | none => false

/-- Claim-side lazy marker scan (the scan described by the specification):
find the first opening delimiter, then the first closing delimiter after
it, yield the span, and resume immediately after the closing delimiter. -/
def claimScan (s : List Char) : List (List Char) :=
  match h : findSub obrace s with
  | none => []
  | some start =>
    match findSub cbrace (s.drop (start + 2)) with
    | none => []
    | some e =>
      ((s.drop start).take (e + 4)) :: claimScan (s.drop (start + 2 + e + 2))
termination_by s.length
decreasing_by
  have hne : s ≠ [] := by
    intro hnil
    rw [hnil] at h
    simp [findSub, obrace] at h
  have hpos : 0 < s.length := List.length_pos.mpr hne
  simp only [List.length_drop]
  omega

/-- The replacement step shared by the claim-side and the code-side
descriptions of `replace_resource`: a recognized span has every occurrence
of its text replaced by the corresponding request field. -/
def resourceStep (context : Request) (result variable_ : List Char) :
    List Char :=
  if variable_ = ANY_VAR then replaceAll result variable_ context.resource.data
  else if variable_ = IDENTITY_VAR then
    replaceAll result variable_ context.identity.data
  else if variable_ = OPERATION_VAR then
    replaceAll result variable_ context.operation.data
  else result

/-- Claim-side `visit_resource`: fold the replacement step over the spans
of the claim-side lazy scan. -/
def claimReplaceResource (value : List Char) (context : Request) :
    List Char :=
  (claimScan value).foldl (resourceStep context) value

/-- Suffix-based restatement of the scan `VariableIter` actually performs:
at each step locate the first opening and the first closing delimiter of
the unscanned suffix, yield the span between them only when the opening
one comes first, and resume after the closing one; otherwise the scan
ends. -/
def amendedScan (s : List Char) : List (List Char) :=
  match hob : findSub obrace s with
  | none => []
  | some start =>
    match hcb : findSub cbrace s with
    | none => []
    | some e =>
      if start < e then
        ((s.drop start).take (e + 2 - start)) :: amendedScan (s.drop (e + 2))
      else []
termination_by s.length
decreasing_by
  have hne : s ≠ [] := by
    intro hnil
    rw [hnil] at hob
    simp [findSub, obrace] at hob
  have hpos : 0 < s.length := List.length_pos.mpr hne
  simp only [List.length_drop]
  omega

/-- The entry an incoming map offers at a key, after the empty-value skip
of the `insert` methods. -/
def SMap.getSkip? {α : Type} (iE : α → Bool) (m : SMap α) (k : String) :
    Option α :=
  match SMap.get? m k with
  | some v => if iE v then none else some v
  | none => none

/-- The replacement step of `replace_identity` (shared by the code-side
and the reference description). -/
def identityStep (context : Request) (result variable_ : List Char) :
    List Char :=
  if variable_ = ANY_VAR ∨ variable_ = IDENTITY_VAR then
    replaceAll result variable_ context.identity.data
  else result

/-- The replacement step of `replace_operation`. -/
def operationStep (context : Request) (result variable_ : List Char) :
    List Char :=
  if variable_ = ANY_VAR ∨ variable_ = OPERATION_VAR then
    replaceAll result variable_ context.operation.data
  else if variable_ = IDENTITY_VAR then
    replaceAll result variable_ context.identity.data
  else result

instance (m : Operations) : Decidable (OperationsWF m) := by
  unfold OperationsWF
  infer_instance

instance (m : Identities) : Decidable (IdentitiesWF m) := by
  unfold IdentitiesWF
  infer_instance

instance (m : Operations) : Decidable (OperationsNE m) := by
  unfold OperationsNE
  infer_instance

instance (m : Identities) : Decidable (IdentitiesNE m) := by
  unfold IdentitiesNE
  infer_instance

instance (p : Policy) : Decidable (PolicyWF p) := by
  unfold PolicyWF
  infer_instance

/-- The resource sub-map a statement files under an operation key in the
variable operation map: the union of both resource partitions when the
operation pattern is itself variable, the variable partition otherwise
(§4.2 of the specification, mirroring `process_operations`). -/
def varResValue (s : Statement20201030) (o : String) : Resources :=
  if is_variable_rule o = true then
    Resources.merge (process_resources s).1 (process_resources s).2
  else (process_resources s).2

/-- The operation sub-map a statement files under an identity key in the
variable identity map (mirroring `process_identities`). -/
def varOpsValue (s : Statement20201030) (i : String) : Operations :=
  if is_variable_rule i = true then
    Operations.merge (process_operations s).1 (process_operations s).2
  else (process_operations s).2

/-- A substituter all of whose visit methods fail (used to exhibit error
propagation and the irrelevance of the variable phase after a static
deny). -/
def failingSubstituter : Substituter where
  visit_identity := fun _ _ => .error (.validationError "substitution failed")
  visit_operation := fun _ _ => .error (.validationError "substitution failed")
  visit_resource := fun _ _ => .error (.validationError "substitution failed")


theorem ltChars_irrefl (l : List Char) : ltChars l l = false := by
  induction l with
  | nil => rfl
  | cons a as ih =>
    simp only [ltChars, ih]
    have h : ¬ a.val.toNat < a.val.toNat := Nat.lt_irrefl _
    simp [h]

theorem ltChars_trans {a b c : List Char} (h₁ : ltChars a b = true)
    (h₂ : ltChars b c = true) : ltChars a c = true := by
  induction a generalizing b c with
  | nil =>
    cases c with
    | nil =>
      cases b with
      | nil => exact absurd h₁ (by simp [ltChars])
      | cons y ys => exact absurd h₂ (by simp [ltChars])
    | cons z zs => rfl
  | cons x xs ih =>
    cases b with
    | nil => exact absurd h₁ (by simp [ltChars])
    | cons y ys =>
      cases c with
      | nil => exact absurd h₂ (by simp [ltChars])
      | cons z zs =>
        simp only [ltChars] at h₁ h₂ ⊢
        by_cases hxy : x.val < y.val
        · have hxy' : x.val.toNat < y.val.toNat := hxy
          by_cases hyz : y.val < z.val
          · have hyz' : y.val.toNat < z.val.toNat := hyz
            have hxz : x.val.toNat < z.val.toNat := Nat.lt_trans hxy' hyz'
            simp [show x.val < z.val from hxz]
          · simp only [hyz, if_neg, if_false] at h₂
            by_cases hzy : z.val < y.val
            · simp [hzy] at h₂
            · have h1 : ¬ y.val.toNat < z.val.toNat := hyz
              have h2 : ¬ z.val.toNat < y.val.toNat := hzy
              have heq : y.val.toNat = z.val.toNat := by omega
              have hxz : x.val.toNat < z.val.toNat := heq ▸ hxy'
              simp [show x.val < z.val from hxz]
        · simp only [hxy, if_neg, if_false] at h₁
          by_cases hyx : y.val < x.val
          · simp [hyx] at h₁
          · simp only [hyx, if_neg, if_false] at h₁
            have h1 : ¬ x.val.toNat < y.val.toNat := hxy
            have h2 : ¬ y.val.toNat < x.val.toNat := hyx
            have heq : x.val.toNat = y.val.toNat := by omega
            by_cases hyz : y.val < z.val
            · have hyz' : y.val.toNat < z.val.toNat := hyz
              have hxz : x.val.toNat < z.val.toNat := by omega
              simp [show x.val < z.val from hxz]
            · simp only [hyz, if_neg, if_false] at h₂
              by_cases hzy : z.val < y.val
              · simp [hzy] at h₂
              · simp only [hzy, if_neg, if_false] at h₂
                have h3 : ¬ y.val.toNat < z.val.toNat := hyz
                have h4 : ¬ z.val.toNat < y.val.toNat := hzy
                have hxz : ¬ x.val.toNat < z.val.toNat := by omega
                have hzx : ¬ z.val.toNat < x.val.toNat := by omega
                simp only [show ¬ x.val < z.val from hxz, if_neg, if_false,
                  show ¬ z.val < x.val from hzx]
                exact ih h₁ h₂

theorem ltChars_eq_of_not {a b : List Char} (h₁ : ltChars a b = false)
    (h₂ : ltChars b a = false) : a = b := by
  induction a generalizing b with
  | nil =>
    cases b with
    | nil => rfl
    | cons y ys => exact absurd h₁ (by simp [ltChars])
  | cons x xs ih =>
    cases b with
    | nil => exact absurd h₂ (by simp [ltChars])
    | cons y ys =>
      simp only [ltChars] at h₁ h₂
      by_cases hxy : x.val < y.val
      · simp [hxy] at h₁
      · by_cases hyx : y.val < x.val
        · simp [hyx] at h₂
        · have h1 : ¬ x.val.toNat < y.val.toNat := hxy
          have h2 : ¬ y.val.toNat < x.val.toNat := hyx
          have heq : x.val.toNat = y.val.toNat := by omega
          have hx : x = y := Char.ext (UInt32.ext heq)
          simp only [hxy, if_neg, if_false, hyx] at h₁ h₂
          rw [hx, ih h₁ h₂]

theorem strLt_irrefl (a : String) : strLt a a = false := ltChars_irrefl _

theorem strLt_trans {a b c : String} (h₁ : strLt a b = true)
    (h₂ : strLt b c = true) : strLt a c = true := ltChars_trans h₁ h₂

theorem strLt_eq_of_not {a b : String} (h₁ : strLt a b = false)
    (h₂ : strLt b a = false) : a = b := by
  cases a with
  | mk la =>
    cases b with
    | mk lb => exact congrArg String.mk (ltChars_eq_of_not h₁ h₂)

theorem strLt_asymm {a b : String} (h : strLt a b = true) :
    strLt b a = false := by
  by_contra hc
  have h₂ : strLt b a = true := by
    cases hba : strLt b a
    · exact absurd hba hc
    · rfl
  have := strLt_trans h h₂
  rw [strLt_irrefl] at this
  exact Bool.false_ne_true this

theorem strLt_total {a b : String} (h₁ : strLt a b = false) (h₂ : a ≠ b) :
    strLt b a = true := by
  cases hba : strLt b a
  · exact absurd (strLt_eq_of_not h₁ hba) h₂
  · rfl

theorem strLt_ne {a b : String} (h : strLt a b = true) : a ≠ b := by
  intro he
  rw [he, strLt_irrefl] at h
  exact Bool.false_ne_true h


theorem strLt_false_of_not {a b : String} (h : ¬ strLt a b = true) :
    strLt a b = false := by
  cases hb : strLt a b
  · rfl
  · exact absurd hb h

theorem combineO_none_right {α : Type} (f : α → α → α) (x : Option α) :
    combineO f x none = x := by
  cases x <;> rfl

theorem combineO_none_left {α : Type} (f : α → α → α) (x : Option α) :
    combineO f none x = x := rfl

theorem combineO_isSome {α : Type} (f : α → α → α) (x y : Option α) :
    (combineO f x y).isSome = (x.isSome || y.isSome) := by
  cases x <;> cases y <;> rfl

theorem SMap.get?_mem {α : Type} {m : SMap α} {k : String} {v : α}
    (h : SMap.get? m k = some v) : (k, v) ∈ m := by
  induction m with
  | nil => exact absurd h (by simp [SMap.get?])
  | cons kv rest ih =>
    obtain ⟨k₁, v₁⟩ := kv
    simp only [SMap.get?] at h
    by_cases he : k = k₁
    · subst he
      rw [if_pos rfl] at h
      cases h
      exact List.mem_cons_self _ _
    · rw [if_neg he] at h
      exact List.mem_cons_of_mem _ (ih h)

theorem SMap.get?_eq_none_of_lt {α : Type} {m : SMap α} {k : String}
    (h : ∀ kv ∈ m, strLt k kv.1 = true) : SMap.get? m k = none := by
  induction m with
  | nil => rfl
  | cons kv rest ih =>
    obtain ⟨k₁, v₁⟩ := kv
    simp only [SMap.get?]
    have hk : strLt k k₁ = true := h (k₁, v₁) (List.mem_cons_self _ _)
    rw [if_neg (strLt_ne hk)]
    exact ih (fun kv hkv => h kv (List.mem_cons_of_mem _ hkv))

theorem SMap.get?_eq_some_of_mem {α : Type} {m : SMap α} {k : String} {v : α}
    (hm : SMap.Sorted m) (h : (k, v) ∈ m) : SMap.get? m k = some v := by
  induction m with
  | nil => exact absurd h (List.not_mem_nil _)
  | cons kv rest ih =>
    obtain ⟨k₁, v₁⟩ := kv
    rcases List.mem_cons.mp h with he | hr
    · cases he
      simp [SMap.get?]
    · have hlt : strLt k₁ k = true := (List.pairwise_cons.mp hm).1 (k, v) hr
      have hne : k ≠ k₁ := fun he => strLt_ne hlt he.symm
      simp only [SMap.get?]
      rw [if_neg hne]
      exact ih (List.Pairwise.of_cons hm) hr

theorem SMap.key_mem_insertWith {α : Type} {f : α → α → α} {k : String}
    {v : α} {m : SMap α} :
    ∀ kv ∈ SMap.insertWith f k v m, kv.1 = k ∨ kv.1 ∈ m.map Prod.fst := by
  induction m with
  | nil =>
    intro kv hkv
    simp only [SMap.insertWith, List.mem_singleton] at hkv
    left
    rw [hkv]
  | cons hd rest ih =>
    obtain ⟨k₁, v₁⟩ := hd
    intro kv hkv
    simp only [SMap.insertWith] at hkv
    by_cases h1 : strLt k k₁ = true
    · rw [if_pos h1] at hkv
      rcases List.mem_cons.mp hkv with he | hr
      · left; rw [he]
      · right
        rcases List.mem_cons.mp hr with he | hr2
        · rw [he]; simp
        · simp only [List.map_cons, List.mem_cons]
          exact Or.inr (List.mem_map_of_mem Prod.fst hr2)
    · rw [if_neg h1] at hkv
      by_cases h2 : k = k₁
      · rw [if_pos h2] at hkv
        rcases List.mem_cons.mp hkv with he | hr
        · right; rw [he]; simp
        · simp only [List.map_cons, List.mem_cons]
          exact Or.inr (Or.inr (List.mem_map_of_mem Prod.fst hr))
      · rw [if_neg h2] at hkv
        rcases List.mem_cons.mp hkv with he | hr
        · right; rw [he]; simp
        · rcases ih kv hr with hk | hm2
          · exact Or.inl hk
          · simp only [List.map_cons, List.mem_cons]
            exact Or.inr (Or.inr hm2)

theorem SMap.sorted_insertWith {α : Type} {f : α → α → α} {k : String}
    {v : α} {m : SMap α} (hm : SMap.Sorted m) :
    SMap.Sorted (SMap.insertWith f k v m) := by
  induction m with
  | nil => simp [SMap.insertWith, SMap.Sorted]
  | cons hd rest ih =>
    obtain ⟨k₁, v₁⟩ := hd
    simp only [SMap.insertWith]
    by_cases h1 : strLt k k₁ = true
    · rw [if_pos h1]
      refine List.pairwise_cons.mpr ⟨?_, hm⟩
      intro kv hkv
      rcases List.mem_cons.mp hkv with he | hr
      · rw [he]; exact h1
      · exact strLt_trans h1 ((List.pairwise_cons.mp hm).1 kv hr)
    · rw [if_neg h1]
      by_cases h2 : k = k₁
      · rw [if_pos h2]
        exact List.pairwise_cons.mpr
          ⟨(List.pairwise_cons.mp hm).1, (List.pairwise_cons.mp hm).2⟩
      · rw [if_neg h2]
        refine List.pairwise_cons.mpr ⟨?_, ih (List.Pairwise.of_cons hm)⟩
        intro kv hkv
        rcases SMap.key_mem_insertWith kv hkv with hk | hmem
        · rw [hk]
          exact strLt_total (strLt_false_of_not h1) h2
        · obtain ⟨⟨k₂, v₂⟩, hmem2, he⟩ := List.mem_map.mp hmem
          have := (List.pairwise_cons.mp hm).1 (k₂, v₂) hmem2
          rw [← he]
          exact this

theorem SMap.get?_insertWith_self {α : Type} {f : α → α → α} {k : String}
    {v : α} {m : SMap α} (hm : SMap.Sorted m) :
    SMap.get? (SMap.insertWith f k v m) k
      = combineO f (SMap.get? m k) (some v) := by
  induction m with
  | nil => simp [SMap.insertWith, SMap.get?, combineO]
  | cons hd rest ih =>
    obtain ⟨k₁, v₁⟩ := hd
    simp only [SMap.insertWith]
    by_cases h1 : strLt k k₁ = true
    · rw [if_pos h1]
      have hnone : SMap.get? ((k₁, v₁) :: rest) k = none := by
        apply SMap.get?_eq_none_of_lt
        intro kv hkv
        rcases List.mem_cons.mp hkv with he | hr
        · rw [he]; exact h1
        · exact strLt_trans h1 ((List.pairwise_cons.mp hm).1 kv hr)
      rw [hnone]
      simp [SMap.get?, combineO]
    · rw [if_neg h1]
      by_cases h2 : k = k₁
      · rw [if_pos h2]
        subst h2
        simp [SMap.get?, combineO]
      · rw [if_neg h2]
        simp only [SMap.get?]
        rw [if_neg h2, if_neg h2]
        exact ih (List.Pairwise.of_cons hm)

theorem SMap.get?_insertWith_ne {α : Type} {f : α → α → α} {k k' : String}
    {v : α} {m : SMap α} (h : k' ≠ k) :
    SMap.get? (SMap.insertWith f k v m) k' = SMap.get? m k' := by
  induction m with
  | nil => simp [SMap.insertWith, SMap.get?, if_neg h]
  | cons hd rest ih =>
    obtain ⟨k₁, v₁⟩ := hd
    simp only [SMap.insertWith]
    by_cases h1 : strLt k k₁ = true
    · rw [if_pos h1]
      simp only [SMap.get?]
      rw [if_neg h]
    · rw [if_neg h1]
      by_cases h2 : k = k₁
      · rw [if_pos h2]
        subst h2
        simp only [SMap.get?]
        rw [if_neg h, if_neg h]
    
      · rw [if_neg h2]
        simp only [SMap.get?]
        by_cases h3 : k' = k₁
        · rw [if_pos h3, if_pos h3]
        · rw [if_neg h3, if_neg h3]
          exact ih

theorem SMap.insertWith_ne_nil {α : Type} {f : α → α → α} {k : String}
    {v : α} {m : SMap α} : SMap.insertWith f k v m ≠ [] := by
  cases m with
  | nil => simp [SMap.insertWith]
  | cons hd rest =>
    obtain ⟨k₁, v₁⟩ := hd
    simp only [SMap.insertWith]
    by_cases h1 : strLt k k₁ = true
    · rw [if_pos h1]; simp
    · rw [if_neg h1]
      by_cases h2 : k = k₁
      · rw [if_pos h2]; simp
      · rw [if_neg h2]; simp

theorem SMap.val_mem_insertWith {α : Type} (P : α → Prop) {f : α → α → α}
    {k : String} {v : α} {m : SMap α} (hPm : ∀ kv ∈ m, P kv.2) (hPv : P v)
    (hf : ∀ a b, P a → P b → P (f a b)) :
    ∀ kv ∈ SMap.insertWith f k v m, P kv.2 := by
  induction m with
  | nil =>
    intro kv hkv
    simp only [SMap.insertWith, List.mem_singleton] at hkv
    rw [hkv]
    exact hPv
  | cons hd rest ih =>
    obtain ⟨k₁, v₁⟩ := hd
    intro kv hkv
    simp only [SMap.insertWith] at hkv
    by_cases h1 : strLt k k₁ = true
    · rw [if_pos h1] at hkv
      rcases List.mem_cons.mp hkv with he | hr
      · rw [he]; exact hPv
      · exact hPm kv hr
    · rw [if_neg h1] at hkv
      by_cases h2 : k = k₁
      · rw [if_pos h2] at hkv
        rcases List.mem_cons.mp hkv with he | hr
        · rw [he]
          exact hf _ _ (hPm (k₁, v₁) (List.mem_cons_self _ _)) hPv
        · exact hPm kv (List.mem_cons_of_mem _ hr)
      · rw [if_neg h2] at hkv
        rcases List.mem_cons.mp hkv with he | hr
        · rw [he]
          exact hPm (k₁, v₁) (List.mem_cons_self _ _)
        · exact ih (fun kv2 hkv2 => hPm kv2 (List.mem_cons_of_mem _ hkv2)) kv hr

theorem SMap.sorted_insertSkip {α : Type} {f : α → α → α} {iE : α → Bool}
    {m : SMap α} {k : String} {v : α} (hm : SMap.Sorted m) :
    SMap.Sorted (SMap.insertSkip f iE m k v) := by
  unfold SMap.insertSkip
  by_cases h : iE v = true
  · rw [if_pos h]; exact hm
  · rw [if_neg h]; exact SMap.sorted_insertWith hm

theorem SMap.get?_insertSkip_self {α : Type} {f : α → α → α} {iE : α → Bool}
    {m : SMap α} {k : String} {v : α} (hm : SMap.Sorted m) :
    SMap.get? (SMap.insertSkip f iE m k v) k
      = combineO f (SMap.get? m k) (if iE v then none else some v) := by
  unfold SMap.insertSkip
  by_cases h : iE v = true
  · rw [if_pos h, if_pos h, combineO_none_right]
  · rw [if_neg h, if_neg h]
    exact SMap.get?_insertWith_self hm

theorem SMap.get?_insertSkip_ne {α : Type} {f : α → α → α} {iE : α → Bool}
    {m : SMap α} {k k' : String} {v : α} (h : k' ≠ k) :
    SMap.get? (SMap.insertSkip f iE m k v) k' = SMap.get? m k' := by
  unfold SMap.insertSkip
  by_cases hE : iE v = true
  · rw [if_pos hE]
  · rw [if_neg hE]
    exact SMap.get?_insertWith_ne h

theorem SMap.insertSkip_ne_nil {α : Type} {f : α → α → α} {iE : α → Bool}
    {m : SMap α} {k : String} {v : α} (hm : m ≠ []) :
    SMap.insertSkip f iE m k v ≠ [] := by
  unfold SMap.insertSkip
  by_cases h : iE v = true
  · rw [if_pos h]; exact hm
  · rw [if_neg h]; exact SMap.insertWith_ne_nil

theorem SMap.sorted_mergeSkip {α : Type} {f : α → α → α} {iE : α → Bool}
    {m c : SMap α} (hm : SMap.Sorted m) :
    SMap.Sorted (SMap.mergeSkip f iE m c) := by
  induction c generalizing m with
  | nil => exact hm
  | cons hd rest ih =>
    exact ih (SMap.sorted_insertSkip hm)

theorem SMap.mergeSkip_ne_nil {α : Type} {f : α → α → α} {iE : α → Bool}
    {m c : SMap α} (hm : m ≠ []) : SMap.mergeSkip f iE m c ≠ [] := by
  induction c generalizing m with
  | nil => exact hm
  | cons hd rest ih =>
    exact ih (SMap.insertSkip_ne_nil hm)

theorem SMap.get?_mergeSkip {α : Type} {f : α → α → α} {iE : α → Bool}
    {m c : SMap α} {k : String} (hm : SMap.Sorted m) (hc : SMap.Sorted c) :
    SMap.get? (SMap.mergeSkip f iE m c) k
      = combineO f (SMap.get? m k) (SMap.getSkip? iE c k) := by
  induction c generalizing m with
  | nil =>
    simp [SMap.mergeSkip, SMap.getSkip?, SMap.get?, combineO_none_right]
  | cons hd rest ih =>
    obtain ⟨k₁, v₁⟩ := hd
    have hstep : SMap.mergeSkip f iE m ((k₁, v₁) :: rest)
        = SMap.mergeSkip f iE (SMap.insertSkip f iE m k₁ v₁) rest := rfl
    rw [hstep, ih (SMap.sorted_insertSkip hm) (List.Pairwise.of_cons hc)]
    by_cases he : k = k₁
    · subst he
      have hrest : SMap.get? rest k = none := by
        apply SMap.get?_eq_none_of_lt
        intro kv hkv
        exact (List.pairwise_cons.mp hc).1 kv hkv
      have hrest2 : SMap.getSkip? iE rest k = none := by
        unfold SMap.getSkip?
        rw [hrest]
      rw [hrest2, combineO_none_right, SMap.get?_insertSkip_self hm]
      unfold SMap.getSkip?
      simp [SMap.get?]
    · rw [SMap.get?_insertSkip_ne he]
      have : SMap.getSkip? iE ((k₁, v₁) :: rest) k = SMap.getSkip? iE rest k := by
        unfold SMap.getSkip?
        simp only [SMap.get?]
        rw [if_neg he]
      rw [this]

theorem SMap.val_mem_insertSkip {α : Type} (P : α → Prop) {f : α → α → α}
    {iE : α → Bool} {k : String} {v : α} {m : SMap α}
    (hPm : ∀ kv ∈ m, P kv.2) (hPv : P v)
    (hf : ∀ a b, P a → P b → P (f a b)) :
    ∀ kv ∈ SMap.insertSkip f iE m k v, P kv.2 := by
  unfold SMap.insertSkip
  by_cases h : iE v = true
  · rw [if_pos h]; exact hPm
  · rw [if_neg h]; exact SMap.val_mem_insertWith P hPm hPv hf

theorem SMap.val_mem_mergeSkip {α : Type} (P : α → Prop) {f : α → α → α}
    {iE : α → Bool} {m c : SMap α}
    (hPm : ∀ kv ∈ m, P kv.2) (hPc : ∀ kv ∈ c, P kv.2)
    (hf : ∀ a b, P a → P b → P (f a b)) :
    ∀ kv ∈ SMap.mergeSkip f iE m c, P kv.2 := by
  induction c generalizing m with
  | nil => exact hPm
  | cons hd rest ih =>
    exact ih
      (SMap.val_mem_insertSkip P hPm (hPc hd (List.mem_cons_self _ _)) hf)
      (fun kv hkv => hPc kv (List.mem_cons_of_mem _ hkv))

theorem Resources.insert_eq_res (m : Resources) (resource : String)
    (effect : EffectOrd) :
    Resources.insert m resource effect
      = SMap.insertSkip EffectOrd.merge (fun _ => false) m resource effect := rfl

theorem Resources.merge_eq_res (m c : Resources) :
    Resources.merge m c
      = SMap.mergeSkip EffectOrd.merge (fun _ => false) m c := rfl

theorem Operations.insert_eq_ops (m : Operations) (operation : String)
    (resources : Resources) :
    Operations.insert m operation resources
      = SMap.insertSkip Resources.merge List.isEmpty m operation resources := rfl

theorem Operations.merge_eq_ops (m c : Operations) :
    Operations.merge m c
      = SMap.mergeSkip Resources.merge List.isEmpty m c := rfl

theorem Identities.insert_eq_ids (m : Identities) (identity : String)
    (operations : Operations) :
    Identities.insert m identity operations
      = SMap.insertSkip Operations.merge List.isEmpty m identity operations := rfl

theorem Identities.merge_eq_ids (m c : Identities) :
    Identities.merge m c
      = SMap.mergeSkip Operations.merge List.isEmpty m c := rfl

theorem Resources.sorted_merge_res {a b : Resources} (ha : SMap.Sorted a) :
    SMap.Sorted (Resources.merge a b) := by
  rw [Resources.merge_eq_res]
  exact SMap.sorted_mergeSkip ha

theorem Resources.merge_ne_nil_res {a b : Resources} (ha : a ≠ []) :
    Resources.merge a b ≠ [] := by
  rw [Resources.merge_eq_res]
  exact SMap.mergeSkip_ne_nil ha

theorem Resources.get?_merge {a b : Resources} (ha : SMap.Sorted a)
    (hb : SMap.Sorted b) (r : String) :
    SMap.get? (Resources.merge a b) r
      = combineO EffectOrd.merge (SMap.get? a r) (SMap.get? b r) := by
  rw [Resources.merge_eq_res, SMap.get?_mergeSkip ha hb]
  have : SMap.getSkip? (fun _ => false) b r = SMap.get? b r := by
    unfold SMap.getSkip?
    cases SMap.get? b r <;> simp
  rw [this]

theorem Operations.sorted_merge_ops {a b : Operations} (ha : SMap.Sorted a) :
    SMap.Sorted (Operations.merge a b) := by
  rw [Operations.merge_eq_ops]
  exact SMap.sorted_mergeSkip ha

theorem Operations.merge_ne_nil_ops {a b : Operations} (ha : a ≠ []) :
    Operations.merge a b ≠ [] := by
  rw [Operations.merge_eq_ops]
  exact SMap.mergeSkip_ne_nil ha

theorem opsWF_merge {a b : Operations} (ha : OperationsWF a)
    (hb : OperationsWF b) : OperationsWF (Operations.merge a b) := by
  constructor
  · exact Operations.sorted_merge_ops ha.1
  · rw [Operations.merge_eq_ops]
    exact SMap.val_mem_mergeSkip SMap.Sorted ha.2 hb.2
      (fun x y hx _ => Resources.sorted_merge_res hx)


theorem opsNE_merge {a b : Operations} (ha : OperationsNE a)
    (hb : OperationsNE b) : OperationsNE (Operations.merge a b) := by
  unfold OperationsNE at ha hb ⊢
  rw [Operations.merge_eq_ops]
  exact SMap.val_mem_mergeSkip (fun v => v ≠ []) ha hb
    (fun x y hx _ => Resources.merge_ne_nil_res hx)

theorem Identities.sorted_merge_ids {a b : Identities} (ha : SMap.Sorted a) :
    SMap.Sorted (Identities.merge a b) := by
  rw [Identities.merge_eq_ids]
  exact SMap.sorted_mergeSkip ha

theorem idsWF_merge {a b : Identities} (ha : IdentitiesWF a)
    (hb : IdentitiesWF b) : IdentitiesWF (Identities.merge a b) := by
  constructor
  · exact Identities.sorted_merge_ids ha.1
  · rw [Identities.merge_eq_ids]
    exact SMap.val_mem_mergeSkip OperationsWF ha.2 hb.2
      (fun x y hx hy => opsWF_merge hx hy)

theorem Identities.merge_ne_nil_ids {a b : Identities} (ha : a ≠ []) :
    Identities.merge a b ≠ [] := by
  rw [Identities.merge_eq_ids]
  exact SMap.mergeSkip_ne_nil ha

theorem idsNE_merge {a b : Identities} (ha : IdentitiesNE a)
    (hb : IdentitiesNE b) : IdentitiesNE (Identities.merge a b) := by
  unfold IdentitiesNE at ha hb ⊢
  rw [Identities.merge_eq_ids]
  exact SMap.val_mem_mergeSkip (fun v => v ≠ [] ∧ OperationsNE v) ha hb
    (fun x y hx hy =>
      ⟨Operations.merge_ne_nil_ops hx.1, opsNE_merge hx.2 hy.2⟩)

theorem Operations.find_merge_ops {a b : Operations} (ha : OperationsWF a)
    (hb : OperationsWF b) (o r : String) :
    Operations.find (Operations.merge a b) o r
      = combineO EffectOrd.merge (Operations.find a o r)
          (Operations.find b o r) := by
  unfold Operations.find
  rw [Operations.merge_eq_ops, SMap.get?_mergeSkip ha.1 hb.1]
  cases hgb : SMap.get? b o with
  | none =>
    have hskip : SMap.getSkip? List.isEmpty b o = none := by
      unfold SMap.getSkip?
      rw [hgb]
    rw [hskip, combineO_none_right]
    simp only [Option.none_bind]
    rw [combineO_none_right]
  | some vb =>
    by_cases hemp : vb.isEmpty = true
    · have hskip : SMap.getSkip? List.isEmpty b o = none := by
        unfold SMap.getSkip?
        rw [hgb]
        simp [hemp]
      have hvb : vb = [] := List.isEmpty_iff.mp hemp
      rw [hskip, combineO_none_right, hvb]
      simp only [Option.some_bind]
      have hnil : SMap.get? ([] : Resources) r = none := rfl
      rw [hnil, combineO_none_right]
    · have hskip : SMap.getSkip? List.isEmpty b o = some vb := by
        unfold SMap.getSkip?
        rw [hgb]
        simp [hemp]
      rw [hskip]
      cases hga : SMap.get? a o with
      | none => simp [combineO]
      | some va =>
        simp only [combineO, Option.some_bind]
        exact Resources.get?_merge (ha.2 (o, va) (SMap.get?_mem hga))
          (hb.2 (o, vb) (SMap.get?_mem hgb)) r

theorem Identities.find_merge_ids {a b : Identities} (ha : IdentitiesWF a)
    (hb : IdentitiesWF b) (i o r : String) :
    Identities.find (Identities.merge a b) i o r
      = combineO EffectOrd.merge (Identities.find a i o r)
          (Identities.find b i o r) := by
  unfold Identities.find
  rw [Identities.merge_eq_ids, SMap.get?_mergeSkip ha.1 hb.1]
  cases hgb : SMap.get? b i with
  | none =>
    have hskip : SMap.getSkip? List.isEmpty b i = none := by
      unfold SMap.getSkip?
      rw [hgb]
    rw [hskip, combineO_none_right]
    simp only [Option.none_bind]
    rw [combineO_none_right]
  | some vb =>
    by_cases hemp : vb.isEmpty = true
    · have hskip : SMap.getSkip? List.isEmpty b i = none := by
        unfold SMap.getSkip?
        rw [hgb]
        simp [hemp]
      have hvb : vb = [] := List.isEmpty_iff.mp hemp
      rw [hskip, combineO_none_right, hvb]
      simp only [Option.some_bind]
      have hnil : Operations.find ([] : Operations) o r = none := rfl
      rw [hnil, combineO_none_right]
    · have hskip : SMap.getSkip? List.isEmpty b i = some vb := by
        unfold SMap.getSkip?
        rw [hgb]
        simp [hemp]
      rw [hskip]
      cases hga : SMap.get? a i with
      | none => simp [combineO]
      | some va =>
        simp only [combineO, Option.some_bind]
        exact Operations.find_merge_ops (ha.2 (i, va) (SMap.get?_mem hga))
          (hb.2 (i, vb) (SMap.get?_mem hgb)) o r

theorem EffectOrd.merge_self (a : EffectOrd) : EffectOrd.merge a a = a := by
  unfold EffectOrd.merge
  simp

theorem EffectOrd.merge_assoc (a b c : EffectOrd) :
    EffectOrd.merge (EffectOrd.merge a b) c
      = EffectOrd.merge a (EffectOrd.merge b c) := by
  unfold EffectOrd.merge
  split_ifs <;> first | rfl | (exfalso; omega)

theorem EffectOrd.merge_comm_of_ne {a b : EffectOrd}
    (h : a.order ≠ b.order) : EffectOrd.merge a b = EffectOrd.merge b a := by
  unfold EffectOrd.merge
  by_cases h1 : a.order > b.order
  · rw [if_pos h1, if_neg (by omega : ¬ b.order > a.order)]
  · rw [if_neg h1, if_pos (by omega : b.order > a.order)]

theorem EffectOrd.merge_eq_left {a b : EffectOrd}
    (h : a.order ≤ b.order) : EffectOrd.merge a b = a := by
  unfold EffectOrd.merge
  rw [if_neg (by omega : ¬ a.order > b.order)]

theorem combineO_assoc {α : Type} {f : α → α → α}
    (hf : ∀ a b c, f (f a b) c = f a (f b c)) (x y z : Option α) :
    combineO f (combineO f x y) z = combineO f x (combineO f y z) := by
  cases x <;> cases y <;> cases z <;> simp [combineO, hf]

theorem combineO_right_comm {α : Type} {f : α → α → α} {x y z : Option α}
    (hf : ∀ a b c, f (f a b) c = f a (f b c))
    (hcomm : ∀ vb vc, y = some vb → z = some vc → f vb vc = f vc vb) :
    combineO f (combineO f x y) z = combineO f (combineO f x z) y := by
  cases x with
  | none =>
    cases y with
    | none => simp [combineO_none_left, combineO_none_right]
    | some vb =>
      cases z with
      | none => simp [combineO, combineO_none_left, combineO_none_right]
      | some vc =>
        simp only [combineO_none_left, combineO]
        rw [hcomm vb vc rfl rfl]
  | some va =>
    cases y with
    | none =>
      cases z <;> simp [combineO, combineO_none_left, combineO_none_right]
    | some vb =>
      cases z with
      | none => simp [combineO, combineO_none_right]
      | some vc =>
        simp only [combineO]
        rw [hf, hf, hcomm vb vc rfl rfl]

theorem SMap.ext_get? {α : Type} {a b : SMap α} (ha : SMap.Sorted a)
    (hb : SMap.Sorted b) (h : ∀ k, SMap.get? a k = SMap.get? b k) :
    a = b := by
  induction a generalizing b with
  | nil =>
    cases b with
    | nil => rfl
    | cons kv rest =>
      obtain ⟨k₁, v₁⟩ := kv
      have h1 := h k₁
      simp only [SMap.get?, if_pos rfl] at h1
      exact absurd h1.symm (by simp)
  | cons kv resta ih =>
    obtain ⟨k₁, v₁⟩ := kv
    cases b with
    | nil =>
      have h1 := h k₁
      simp only [SMap.get?, if_pos rfl] at h1
      exact absurd h1 (by simp)
    | cons kv2 restb =>
      obtain ⟨k₂, v₂⟩ := kv2
      have hk : k₁ = k₂ := by
        by_contra hne
        have h1 := h k₁
        have h2 := h k₂
        simp only [SMap.get?, if_pos rfl] at h1 h2
        rw [if_neg hne] at h1
        rw [if_neg (fun he => hne he.symm)] at h2
        by_cases hlt : strLt k₁ k₂ = true
        · have : SMap.get? restb k₁ = none := by
            apply SMap.get?_eq_none_of_lt
            intro kv hkv
            exact strLt_trans hlt ((List.pairwise_cons.mp hb).1 kv hkv)
          rw [this] at h1
          exact absurd h1 (by simp)
        · have hgt : strLt k₂ k₁ = true :=
            strLt_total (strLt_false_of_not hlt) hne
          have : SMap.get? resta k₂ = none := by
            apply SMap.get?_eq_none_of_lt
            intro kv hkv
            exact strLt_trans hgt ((List.pairwise_cons.mp ha).1 kv hkv)
          rw [this] at h2
          exact absurd h2.symm (by simp)
      subst hk
      have hv : v₁ = v₂ := by
        have h1 := h k₁
        simp only [SMap.get?, if_pos rfl] at h1
        exact Option.some.inj h1
      subst hv
      have htails : resta = restb := by
        apply ih (List.Pairwise.of_cons ha) (List.Pairwise.of_cons hb)
        intro k
        by_cases hk1 : k = k₁
        · subst hk1
          have hna : SMap.get? resta k = none := by
            apply SMap.get?_eq_none_of_lt
            intro kv hkv
            exact (List.pairwise_cons.mp ha).1 kv hkv
          have hnb : SMap.get? restb k = none := by
            apply SMap.get?_eq_none_of_lt
            intro kv hkv
            exact (List.pairwise_cons.mp hb).1 kv hkv
          rw [hna, hnb]
        · have h1 := h k
          simp only [SMap.get?] at h1
          rw [if_neg hk1, if_neg hk1] at h1
          exact h1
      rw [htails]

theorem Operations.find_witness {m : Operations} (hne : m ≠ [])
    (hN : OperationsNE m) : ∃ o r eo, Operations.find m o r = some eo := by
  cases m with
  | nil => exact absurd rfl hne
  | cons kv rest =>
    obtain ⟨o, res⟩ := kv
    have hres : res ≠ [] := hN (o, res) (List.mem_cons_self _ _)
    cases res with
    | nil => exact absurd rfl hres
    | cons rkv rrest =>
      obtain ⟨r, eo⟩ := rkv
      refine ⟨o, r, eo, ?_⟩
      unfold Operations.find
      simp [SMap.get?]

theorem Operations.ext_find_ops {a b : Operations} (ha : OperationsWF a)
    (hb : OperationsWF b) (haN : OperationsNE a) (hbN : OperationsNE b)
    (h : ∀ o r, Operations.find a o r = Operations.find b o r) : a = b := by
  apply SMap.ext_get? ha.1 hb.1
  intro o
  cases hga : SMap.get? a o with
  | none =>
    cases hgb : SMap.get? b o with
    | none => rfl
    | some vb =>
      have hvb : vb ≠ [] := hbN (o, vb) (SMap.get?_mem hgb)
      cases vb with
      | nil => exact absurd rfl hvb
      | cons rkv rrest =>
        obtain ⟨r, eo⟩ := rkv
        have hfb : Operations.find b o r = some eo := by
          unfold Operations.find
          rw [hgb]
          simp [SMap.get?]
        have hfa : Operations.find a o r = none := by
          unfold Operations.find
          rw [hga]
          rfl
        rw [← h o r, hfa] at hfb
        exact absurd hfb (by simp)
  | some va =>
    cases hgb : SMap.get? b o with
    | none =>
      have hva : va ≠ [] := haN (o, va) (SMap.get?_mem hga)
      cases va with
      | nil => exact absurd rfl hva
      | cons rkv rrest =>
        obtain ⟨r, eo⟩ := rkv
        have hfa : Operations.find a o r = some eo := by
          unfold Operations.find
          rw [hga]
          simp [SMap.get?]
        have hfb : Operations.find b o r = none := by
          unfold Operations.find
          rw [hgb]
          rfl
        rw [h o r, hfb] at hfa
        exact absurd hfa (by simp)
    | some vb =>
      have hv : va = vb := by
        apply SMap.ext_get? (ha.2 (o, va) (SMap.get?_mem hga))
          (hb.2 (o, vb) (SMap.get?_mem hgb))
        intro r
        have h1 := h o r
        unfold Operations.find at h1
        rw [hga, hgb] at h1
        simpa using h1
      rw [hv]


theorem Identities.ext_find_ids {a b : Identities} (ha : IdentitiesWF a)
    (hb : IdentitiesWF b) (haN : IdentitiesNE a) (hbN : IdentitiesNE b)
    (h : ∀ i o r, Identities.find a i o r = Identities.find b i o r) :
    a = b := by
  apply SMap.ext_get? ha.1 hb.1
  intro i
  cases hga : SMap.get? a i with
  | none =>
    cases hgb : SMap.get? b i with
    | none => rfl
    | some vb =>
      obtain ⟨hvbne, hvbN⟩ := hbN (i, vb) (SMap.get?_mem hgb)
      obtain ⟨o, r, eo, hfind⟩ := Operations.find_witness hvbne hvbN
      have hfb : Identities.find b i o r = some eo := by
        unfold Identities.find
        rw [hgb]
        simpa using hfind
      have hfa : Identities.find a i o r = none := by
        unfold Identities.find
        rw [hga]
        rfl
      rw [← h i o r, hfa] at hfb
      exact absurd hfb (by simp)
  | some va =>
    cases hgb : SMap.get? b i with
    | none =>
      obtain ⟨hvane, hvaN⟩ := haN (i, va) (SMap.get?_mem hga)
      obtain ⟨o, r, eo, hfind⟩ := Operations.find_witness hvane hvaN
      have hfa : Identities.find a i o r = some eo := by
        unfold Identities.find
        rw [hga]
        simpa using hfind
      have hfb : Identities.find b i o r = none := by
        unfold Identities.find
        rw [hgb]
        rfl
      rw [h i o r, hfb] at hfa
      exact absurd hfa (by simp)
    | some vb =>
      have hv : va = vb := by
        apply Operations.ext_find_ops (ha.2 (i, va) (SMap.get?_mem hga))
          (hb.2 (i, vb) (SMap.get?_mem hgb))
          (haN (i, va) (SMap.get?_mem hga)).2
          (hbN (i, vb) (SMap.get?_mem hgb)).2
        intro o r
        have h1 := h i o r
        unfold Identities.find at h1
        rw [hga, hgb] at h1
        simpa using h1
      rw [hv]

theorem process_resources_go {s : Statement20201030} :
    ∀ (l : List String) (acc : Resources × Resources)
      (h1 : SMap.Sorted acc.1) (h2 : SMap.Sorted acc.2)
      (hv1 : ∀ kv ∈ acc.1, kv.2 = s.effectOrd)
      (hv2 : ∀ kv ∈ acc.2, kv.2 = s.effectOrd),
    let out := l.foldl
      (fun acc resource =>
        if is_variable_rule resource then
          (acc.1, Resources.insert acc.2 resource s.effectOrd)
        else
          (Resources.insert acc.1 resource s.effectOrd, acc.2)) acc
    (∀ r : String, SMap.get? out.1 r
        = if r ∈ l ∧ is_variable_rule r = false then some s.effectOrd
          else SMap.get? acc.1 r)
      ∧ (∀ r : String, SMap.get? out.2 r
        = if r ∈ l ∧ is_variable_rule r = true then some s.effectOrd
          else SMap.get? acc.2 r)
      ∧ SMap.Sorted out.1 ∧ SMap.Sorted out.2
      ∧ (∀ kv ∈ out.1, kv.2 = s.effectOrd)
      ∧ (∀ kv ∈ out.2, kv.2 = s.effectOrd) := by
  intro l
  induction l with
  | nil =>
    intro acc h1 h2 hv1 hv2
    refine ⟨fun r => ?_, fun r => ?_, h1, h2, hv1, hv2⟩
    · rw [if_neg (by simp)]
      rfl
    · rw [if_neg (by simp)]
      rfl
  | cons res rest ih =>
    intro acc h1 h2 hv1 hv2
    simp only [List.foldl_cons]
    by_cases hvr : is_variable_rule res = true
    · rw [if_pos hvr]
      have hacc1 : SMap.Sorted (acc.1) := h1
      have hin2 : SMap.Sorted (Resources.insert acc.2 res s.effectOrd) := by
        rw [Resources.insert_eq_res]
        exact SMap.sorted_insertSkip h2
      have hinv2 : ∀ kv ∈ Resources.insert acc.2 res s.effectOrd,
          kv.2 = s.effectOrd := by
        rw [Resources.insert_eq_res]
        exact SMap.val_mem_insertSkip (fun v => v = s.effectOrd) hv2 rfl
          (fun a b ha hb => by rw [ha, hb, EffectOrd.merge_self])
      obtain ⟨g1, g2, gs1, gs2, gv1, gv2⟩ :=
        ih (acc.1, Resources.insert acc.2 res s.effectOrd) hacc1 hin2 hv1 hinv2
      refine ⟨fun r => ?_, fun r => ?_, gs1, gs2, gv1, gv2⟩
      · rw [g1 r]
        by_cases hmem : r ∈ rest ∧ is_variable_rule r = false
        · rw [if_pos hmem, if_pos ⟨List.mem_cons_of_mem _ hmem.1, hmem.2⟩]
        · rw [if_neg hmem]
          by_cases hmem2 : r ∈ res :: rest ∧ is_variable_rule r = false
          · exfalso
            rcases List.mem_cons.mp hmem2.1 with he | hr
            · rw [he] at hmem2
              rw [hmem2.2] at hvr
              exact Bool.false_ne_true hvr
            · exact hmem ⟨hr, hmem2.2⟩
          · rw [if_neg hmem2]
      · rw [g2 r]
        by_cases hre : r = res
        · subst hre
          have hcond : r ∈ r :: rest ∧ is_variable_rule r = true :=
            ⟨List.mem_cons_self _ _, hvr⟩
          rw [if_pos hcond]
          by_cases hmem : r ∈ rest ∧ is_variable_rule r = true
          · rw [if_pos hmem]
          · rw [if_neg hmem]
            rw [Resources.insert_eq_res, SMap.get?_insertSkip_self h2]
            simp only [if_neg (by simp : ¬ (fun (_ : EffectOrd) => false)
              s.effectOrd = true)]
            cases hget : SMap.get? acc.2 r with
            | none => rfl
            | some old =>
              have : old = s.effectOrd := hv2 (r, old) (SMap.get?_mem hget)
              subst this
              simp [combineO, EffectOrd.merge_self]
        · have hstep : SMap.get? (Resources.insert acc.2 res s.effectOrd) r
              = SMap.get? acc.2 r := by
            rw [Resources.insert_eq_res]
            exact SMap.get?_insertSkip_ne hre
          rw [hstep]
          by_cases hmem : r ∈ rest ∧ is_variable_rule r = true
          · rw [if_pos hmem, if_pos ⟨List.mem_cons_of_mem _ hmem.1, hmem.2⟩]
          · rw [if_neg hmem]
            have : ¬ (r ∈ res :: rest ∧ is_variable_rule r = true) := by
              intro hc
              rcases List.mem_cons.mp hc.1 with he | hr
              · exact hre he
              · exact hmem ⟨hr, hc.2⟩
            rw [if_neg this]
    · rw [if_neg hvr]
      have hvrf : is_variable_rule res = false := by
        cases hb : is_variable_rule res
        · rfl
        · exact absurd hb hvr
      have hin1 : SMap.Sorted (Resources.insert acc.1 res s.effectOrd) := by
        rw [Resources.insert_eq_res]
        exact SMap.sorted_insertSkip h1
      have hinv1 : ∀ kv ∈ Resources.insert acc.1 res s.effectOrd,
          kv.2 = s.effectOrd := by
        rw [Resources.insert_eq_res]
        exact SMap.val_mem_insertSkip (fun v => v = s.effectOrd) hv1 rfl
          (fun a b ha hb => by rw [ha, hb, EffectOrd.merge_self])
      obtain ⟨g1, g2, gs1, gs2, gv1, gv2⟩ :=
        ih (Resources.insert acc.1 res s.effectOrd, acc.2) hin1 h2 hinv1 hv2
      refine ⟨fun r => ?_, fun r => ?_, gs1, gs2, gv1, gv2⟩
      · rw [g1 r]
        by_cases hre : r = res
        · subst hre
          have hcond : r ∈ r :: rest ∧ is_variable_rule r = false :=
            ⟨List.mem_cons_self _ _, hvrf⟩
          rw [if_pos hcond]
          by_cases hmem : r ∈ rest ∧ is_variable_rule r = false
          · rw [if_pos hmem]
          · rw [if_neg hmem]
            rw [Resources.insert_eq_res, SMap.get?_insertSkip_self h1]
            simp only [if_neg (by simp : ¬ (fun (_ : EffectOrd) => false)
              s.effectOrd = true)]
            cases hget : SMap.get? acc.1 r with
            | none => rfl
            | some old =>
              have : old = s.effectOrd := hv1 (r, old) (SMap.get?_mem hget)
              subst this
              simp [combineO, EffectOrd.merge_self]
        · have hstep : SMap.get? (Resources.insert acc.1 res s.effectOrd) r
              = SMap.get? acc.1 r := by
            rw [Resources.insert_eq_res]
            exact SMap.get?_insertSkip_ne hre
          rw [hstep]
          by_cases hmem : r ∈ rest ∧ is_variable_rule r = false
          · rw [if_pos hmem, if_pos ⟨List.mem_cons_of_mem _ hmem.1, hmem.2⟩]
          · rw [if_neg hmem]
            have : ¬ (r ∈ res :: rest ∧ is_variable_rule r = false) := by
              intro hc
              rcases List.mem_cons.mp hc.1 with he | hr
              · exact hre he
              · exact hmem ⟨hr, hc.2⟩
            rw [if_neg this]
      · rw [g2 r]
        by_cases hmem : r ∈ rest ∧ is_variable_rule r = true
        · rw [if_pos hmem, if_pos ⟨List.mem_cons_of_mem _ hmem.1, hmem.2⟩]
        · rw [if_neg hmem]
          by_cases hmem2 : r ∈ res :: rest ∧ is_variable_rule r = true
          · exfalso
            rcases List.mem_cons.mp hmem2.1 with he | hr
            · rw [he] at hmem2
              rw [hmem2.2] at hvrf
              exact Bool.false_ne_true hvrf.symm
            · exact hmem ⟨hr, hmem2.2⟩
          · rw [if_neg hmem2]

theorem SMap.insertWith_absorb {α : Type} {f : α → α → α} {k : String}
    {v : α} {m : SMap α} (hm : SMap.Sorted m) (hmem : (k, v) ∈ m)
    (hf : f v v = v) : SMap.insertWith f k v m = m := by
  induction m with
  | nil => exact absurd hmem (List.not_mem_nil _)
  | cons hd rest ih =>
    obtain ⟨k₁, v₁⟩ := hd
    simp only [SMap.insertWith]
    rcases List.mem_cons.mp hmem with he | hr
    · obtain ⟨he1, he2⟩ := Prod.mk.injEq .. ▸ he
      subst he1
      subst he2
      rw [if_neg (by rw [strLt_irrefl]; simp), if_pos rfl, hf]
    · have hlt : strLt k₁ k = true := (List.pairwise_cons.mp hm).1 (k, v) hr
      have hne : k ≠ k₁ := fun he => strLt_ne hlt he.symm
      rw [if_neg (by rw [strLt_asymm hlt]; simp), if_neg hne,
        ih (List.Pairwise.of_cons hm) hr]

theorem SMap.mergeSkip_self {α : Type} {f : α → α → α} {iE : α → Bool}
    {m : SMap α} (hm : SMap.Sorted m) (hf : ∀ kv ∈ m, f kv.2 kv.2 = kv.2) :
    SMap.mergeSkip f iE m m = m := by
  have haux : ∀ l : SMap α, (∀ kv ∈ l, kv ∈ m) →
      List.foldl (fun acc kv => SMap.insertSkip f iE acc kv.1 kv.2) m l = m := by
    intro l
    induction l with
    | nil => intro _; rfl
    | cons hd rest ih =>
      intro hsub
      have hstep : SMap.insertSkip f iE m hd.1 hd.2 = m := by
        unfold SMap.insertSkip
        by_cases hE : iE hd.2 = true
        · rw [if_pos hE]
        · rw [if_neg hE]
          exact SMap.insertWith_absorb hm
            (by
              have := hsub hd (List.mem_cons_self _ _)
              exact this)
            (hf hd (hsub hd (List.mem_cons_self _ _)))
      simp only [List.foldl_cons, hstep]
      exact ih (fun kv hkv => hsub kv (List.mem_cons_of_mem _ hkv))
  exact haux m (fun kv hkv => hkv)

theorem Resources.merge_self_res {m : Resources} (hm : SMap.Sorted m) :
    Resources.merge m m = m := by
  rw [Resources.merge_eq_res]
  exact SMap.mergeSkip_self hm (fun kv _ => EffectOrd.merge_self kv.2)

theorem Operations.merge_self_ops {m : Operations} (hm : OperationsWF m) :
    Operations.merge m m = m := by
  rw [Operations.merge_eq_ops]
  exact SMap.mergeSkip_self hm.1
    (fun kv hkv => Resources.merge_self_res (hm.2 kv hkv))

theorem process_resources_char (s : Statement20201030) :
    (∀ r, SMap.get? (process_resources s).1 r
      = if r ∈ s.resources ∧ is_variable_rule r = false then some s.effectOrd
        else none)
    ∧ (∀ r, SMap.get? (process_resources s).2 r
      = if r ∈ s.resources ∧ is_variable_rule r = true then some s.effectOrd
        else none)
    ∧ SMap.Sorted (process_resources s).1 ∧ SMap.Sorted (process_resources s).2
    ∧ (∀ kv ∈ (process_resources s).1, kv.2 = s.effectOrd)
    ∧ (∀ kv ∈ (process_resources s).2, kv.2 = s.effectOrd) := by
  have h := @process_resources_go s s.resources ([], [])
    (by simp [SMap.Sorted]) (by simp [SMap.Sorted]) (by simp) (by simp)
  obtain ⟨g1, g2, gs1, gs2, gv1, gv2⟩ := h
  exact ⟨g1, g2, gs1, gs2, gv1, gv2⟩

theorem SMap.kv_mem_insertWith {α : Type} (P : String × α → Prop)
    {f : α → α → α} {k : String} {v : α} {m : SMap α}
    (hPm : ∀ kv ∈ m, P kv) (hPv : P (k, v))
    (hf : ∀ (k' : String) (a b : α), P (k', a) → P (k', b) → P (k', f a b)) :
    ∀ kv ∈ SMap.insertWith f k v m, P kv := by
  induction m with
  | nil =>
    intro kv hkv
    simp only [SMap.insertWith, List.mem_singleton] at hkv
    rw [hkv]
    exact hPv
  | cons hd rest ih =>
    obtain ⟨k₁, v₁⟩ := hd
    intro kv hkv
    simp only [SMap.insertWith] at hkv
    by_cases h1 : strLt k k₁ = true
    · rw [if_pos h1] at hkv
      rcases List.mem_cons.mp hkv with he | hr
      · rw [he]; exact hPv
      · exact hPm kv hr
    · rw [if_neg h1] at hkv
      by_cases h2 : k = k₁
      · rw [if_pos h2] at hkv
        rcases List.mem_cons.mp hkv with he | hr
        · rw [he]
          subst h2
          exact hf k v₁ v (hPm (k, v₁) (List.mem_cons_self _ _)) hPv
        · exact hPm kv (List.mem_cons_of_mem _ hr)
      · rw [if_neg h2] at hkv
        rcases List.mem_cons.mp hkv with he | hr
        · rw [he]
          exact hPm (k₁, v₁) (List.mem_cons_self _ _)
        · exact ih (fun kv2 hkv2 => hPm kv2 (List.mem_cons_of_mem _ hkv2)) kv hr

theorem SMap.kv_mem_insertSkip {α : Type} (P : String × α → Prop)
    {f : α → α → α} {iE : α → Bool} {k : String} {v : α} {m : SMap α}
    (hPm : ∀ kv ∈ m, P kv) (hPv : iE v = false → P (k, v))
    (hf : ∀ (k' : String) (a b : α), P (k', a) → P (k', b) → P (k', f a b)) :
    ∀ kv ∈ SMap.insertSkip f iE m k v, P kv := by
  unfold SMap.insertSkip
  by_cases h : iE v = true
  · rw [if_pos h]; exact hPm
  · rw [if_neg h]
    exact SMap.kv_mem_insertWith P hPm
      (hPv (by cases hb : iE v; rfl; exact absurd hb h)) hf

theorem varResValue_sorted (s : Statement20201030) (o : String) :
    SMap.Sorted (varResValue s o) := by
  unfold varResValue
  obtain ⟨-, -, hs1, hs2, -, -⟩ := process_resources_char s
  by_cases h : is_variable_rule o = true
  · rw [if_pos h]
    exact Resources.sorted_merge_res hs1
  · rw [if_neg h]
    exact hs2

theorem process_operations_go {s : Statement20201030} :
    ∀ (l : List String) (acc : Operations × Operations)
      (h1 : SMap.Sorted acc.1) (h2 : SMap.Sorted acc.2)
      (hv1 : ∀ kv ∈ acc.1, kv.2 = (process_resources s).1)
      (hv2 : ∀ kv ∈ acc.2, kv.2 = varResValue s kv.1),
    let out := l.foldl
      (fun acc operation =>
        let res := process_resources s
        if is_variable_rule operation then
          (acc.1,
            Operations.insert acc.2 operation (Resources.merge res.1 res.2))
        else
          (Operations.insert acc.1 operation res.1,
            Operations.insert acc.2 operation res.2)) acc
    (∀ o, SMap.get? out.1 o
        = if o ∈ l ∧ is_variable_rule o = false
            ∧ ((process_resources s).1).isEmpty = false
          then some (process_resources s).1
          else SMap.get? acc.1 o)
      ∧ (∀ o, SMap.get? out.2 o
        = if o ∈ l ∧ (varResValue s o).isEmpty = false
          then some (varResValue s o)
          else SMap.get? acc.2 o)
      ∧ SMap.Sorted out.1 ∧ SMap.Sorted out.2
      ∧ (∀ kv ∈ out.1, kv.2 = (process_resources s).1)
      ∧ (∀ kv ∈ out.2, kv.2 = varResValue s kv.1) := by
  intro l
  induction l with
  | nil =>
    intro acc h1 h2 hv1 hv2
    refine ⟨fun o => ?_, fun o => ?_, h1, h2, hv1, hv2⟩
    · rw [if_neg (by simp)]
      rfl
    · rw [if_neg (by simp)]
      rfl
  | cons op rest ih =>
    intro acc h1 h2 hv1 hv2
    simp only [List.foldl_cons]
    by_cases hvo : is_variable_rule op = true
    · rw [if_pos hvo]
      have hins2 : SMap.Sorted (Operations.insert acc.2 op
          (Resources.merge (process_resources s).1 (process_resources s).2)) := by
        rw [Operations.insert_eq_ops]
        exact SMap.sorted_insertSkip h2
      have hinv2 : ∀ kv ∈ Operations.insert acc.2 op
          (Resources.merge (process_resources s).1 (process_resources s).2),
          kv.2 = varResValue s kv.1 := by
        rw [Operations.insert_eq_ops]
        exact SMap.kv_mem_insertSkip (fun kv => kv.2 = varResValue s kv.1) hv2
          (fun _ => by
            show Resources.merge (process_resources s).1 (process_resources s).2
              = varResValue s op
            unfold varResValue
            rw [if_pos hvo])
          (fun k' a b ha hb => by
            have ha' : a = varResValue s k' := ha
            have hb' : b = varResValue s k' := hb
            show Resources.merge a b = varResValue s k'
            rw [ha', hb']
            exact Resources.merge_self_res (varResValue_sorted s k'))
      obtain ⟨g1, g2, gs1, gs2, gv1, gv2⟩ :=
        ih (acc.1, Operations.insert acc.2 op
          (Resources.merge (process_resources s).1 (process_resources s).2))
          h1 hins2 hv1 hinv2
      refine ⟨fun o => ?_, fun o => ?_, gs1, gs2, gv1, gv2⟩
      · rw [g1 o]
        by_cases hmem : o ∈ rest ∧ is_variable_rule o = false
            ∧ ((process_resources s).1).isEmpty = false
        · rw [if_pos hmem,
            if_pos ⟨List.mem_cons_of_mem _ hmem.1, hmem.2.1, hmem.2.2⟩]
        · rw [if_neg hmem]
          by_cases hmem2 : o ∈ op :: rest ∧ is_variable_rule o = false
              ∧ ((process_resources s).1).isEmpty = false
          · exfalso
            rcases List.mem_cons.mp hmem2.1 with he | hr
            · rw [he, hvo] at hmem2
              exact Bool.false_ne_true hmem2.2.1.symm
            · exact hmem ⟨hr, hmem2.2⟩
          · rw [if_neg hmem2]
      · rw [g2 o]
        by_cases ho : o = op
        · subst ho
          by_cases hmem : o ∈ rest ∧ (varResValue s o).isEmpty = false
          · rw [if_pos hmem,
              if_pos ⟨List.mem_cons_self _ _, hmem.2⟩]
          · rw [if_neg hmem]
            have hval : varResValue s o
                = Resources.merge (process_resources s).1 (process_resources s).2 := by
              unfold varResValue
              rw [if_pos hvo]
            dsimp only
            rw [Operations.insert_eq_ops, SMap.get?_insertSkip_self h2, ← hval]
            by_cases hemp : (varResValue s o).isEmpty = true
            · rw [if_pos hemp, combineO_none_right,
                if_neg (by intro hc; rw [hc.2] at hemp; exact Bool.false_ne_true hemp)]
            · rw [if_neg hemp]
              have hempf : (varResValue s o).isEmpty = false := by
                cases hb : (varResValue s o).isEmpty
                · rfl
                · exact absurd hb hemp
              rw [if_pos ⟨List.mem_cons_self _ _, hempf⟩]
              cases hget : SMap.get? acc.2 o with
              | none => rfl
              | some old =>
                have hold : old = varResValue s o :=
                  hv2 (o, old) (SMap.get?_mem hget)
                subst hold
                simp only [combineO]
                rw [Resources.merge_self_res (varResValue_sorted s o)]
        · have hstep : SMap.get? (Operations.insert acc.2 op
              (Resources.merge (process_resources s).1 (process_resources s).2)) o
              = SMap.get? acc.2 o := by
            rw [Operations.insert_eq_ops]
            exact SMap.get?_insertSkip_ne ho
          rw [hstep]
          by_cases hmem : o ∈ rest ∧ (varResValue s o).isEmpty = false
          · rw [if_pos hmem, if_pos ⟨List.mem_cons_of_mem _ hmem.1, hmem.2⟩]
          · rw [if_neg hmem, if_neg (by
              intro hc
              rcases List.mem_cons.mp hc.1 with he | hr
              · exact ho he
              · exact hmem ⟨hr, hc.2⟩)]
    · rw [if_neg hvo]
      have hvof : is_variable_rule op = false := by
        cases hb : is_variable_rule op
        · rfl
        · exact absurd hb hvo
      have hins1 : SMap.Sorted (Operations.insert acc.1 op
          (process_resources s).1) := by
        rw [Operations.insert_eq_ops]
        exact SMap.sorted_insertSkip h1
      have hins2 : SMap.Sorted (Operations.insert acc.2 op
          (process_resources s).2) := by
        rw [Operations.insert_eq_ops]
        exact SMap.sorted_insertSkip h2
      have hinv1 : ∀ kv ∈ Operations.insert acc.1 op (process_resources s).1,
          kv.2 = (process_resources s).1 := by
        rw [Operations.insert_eq_ops]
        exact SMap.kv_mem_insertSkip (fun kv => kv.2 = (process_resources s).1)
          hv1 (fun _ => rfl)
          (fun k' a b ha hb => by
            obtain ⟨-, -, hs1, -, -, -⟩ := process_resources_char s
            have ha' : a = (process_resources s).1 := ha
            have hb' : b = (process_resources s).1 := hb
            show Resources.merge a b = (process_resources s).1
            rw [ha', hb']
            exact Resources.merge_self_res hs1)
      have hinv2 : ∀ kv ∈ Operations.insert acc.2 op (process_resources s).2,
          kv.2 = varResValue s kv.1 := by
        rw [Operations.insert_eq_ops]
        exact SMap.kv_mem_insertSkip (fun kv => kv.2 = varResValue s kv.1) hv2
          (fun _ => by
            show (process_resources s).2 = varResValue s op
            unfold varResValue
            rw [if_neg hvo])
          (fun k' a b ha hb => by
            have ha' : a = varResValue s k' := ha
            have hb' : b = varResValue s k' := hb
            show Resources.merge a b = varResValue s k'
            rw [ha', hb']
            exact Resources.merge_self_res (varResValue_sorted s k'))
      obtain ⟨g1, g2, gs1, gs2, gv1, gv2⟩ :=
        ih (Operations.insert acc.1 op (process_resources s).1,
          Operations.insert acc.2 op (process_resources s).2)
          hins1 hins2 hinv1 hinv2
      refine ⟨fun o => ?_, fun o => ?_, gs1, gs2, gv1, gv2⟩
      · rw [g1 o]
        by_cases ho : o = op
        · subst ho
          by_cases hmem : o ∈ rest ∧ is_variable_rule o = false
              ∧ ((process_resources s).1).isEmpty = false
          · rw [if_pos hmem,
              if_pos ⟨List.mem_cons_self _ _, hmem.2⟩]
          · rw [if_neg hmem]
            rw [Operations.insert_eq_ops, SMap.get?_insertSkip_self h1]
            by_cases hemp : ((process_resources s).1).isEmpty = true
            · rw [if_pos hemp, combineO_none_right,
                if_neg (by intro hc; rw [hc.2.2] at hemp; exact Bool.false_ne_true hemp)]
            · rw [if_neg hemp]
              have hempf : ((process_resources s).1).isEmpty = false := by
                cases hb : ((process_resources s).1).isEmpty
                · rfl
                · exact absurd hb hemp
              rw [if_pos ⟨List.mem_cons_self _ _, hvof, hempf⟩]
              cases hget : SMap.get? acc.1 o with
              | none => rfl
              | some old =>
                have hold : old = (process_resources s).1 :=
                  hv1 (o, old) (SMap.get?_mem hget)
                subst hold
                simp only [combineO]
                obtain ⟨-, -, hs1, -, -, -⟩ := process_resources_char s
                rw [Resources.merge_self_res hs1]
        · have hstep : SMap.get? (Operations.insert acc.1 op
              (process_resources s).1) o = SMap.get? acc.1 o := by
            rw [Operations.insert_eq_ops]
            exact SMap.get?_insertSkip_ne ho
          rw [hstep]
          by_cases hmem : o ∈ rest ∧ is_variable_rule o = false
              ∧ ((process_resources s).1).isEmpty = false
          · rw [if_pos hmem,
              if_pos ⟨List.mem_cons_of_mem _ hmem.1, hmem.2⟩]
          · rw [if_neg hmem, if_neg (by
              intro hc
              rcases List.mem_cons.mp hc.1 with he | hr
              · exact ho he
              · exact hmem ⟨hr, hc.2⟩)]
      · rw [g2 o]
        by_cases ho : o = op
        · subst ho
          by_cases hmem : o ∈ rest ∧ (varResValue s o).isEmpty = false
          · rw [if_pos hmem,
              if_pos ⟨List.mem_cons_self _ _, hmem.2⟩]
          · rw [if_neg hmem]
            have hval : varResValue s o = (process_resources s).2 := by
              unfold varResValue
              rw [if_neg hvo]
            dsimp only
            rw [Operations.insert_eq_ops, SMap.get?_insertSkip_self h2, ← hval]
            by_cases hemp : (varResValue s o).isEmpty = true
            · rw [if_pos hemp, combineO_none_right,
                if_neg (by intro hc; rw [hc.2] at hemp; exact Bool.false_ne_true hemp)]
            · rw [if_neg hemp]
              have hempf : (varResValue s o).isEmpty = false := by
                cases hb : (varResValue s o).isEmpty
                · rfl
                · exact absurd hb hemp
              rw [if_pos ⟨List.mem_cons_self _ _, hempf⟩]
              cases hget : SMap.get? acc.2 o with
              | none => rfl
              | some old =>
                have hold : old = varResValue s o :=
                  hv2 (o, old) (SMap.get?_mem hget)
                subst hold
                simp only [combineO]
                rw [Resources.merge_self_res (varResValue_sorted s o)]
        · have hstep : SMap.get? (Operations.insert acc.2 op
              (process_resources s).2) o = SMap.get? acc.2 o := by
            rw [Operations.insert_eq_ops]
            exact SMap.get?_insertSkip_ne ho
          rw [hstep]
          by_cases hmem : o ∈ rest ∧ (varResValue s o).isEmpty = false
          · rw [if_pos hmem, if_pos ⟨List.mem_cons_of_mem _ hmem.1, hmem.2⟩]
          · rw [if_neg hmem, if_neg (by
              intro hc
              rcases List.mem_cons.mp hc.1 with he | hr
              · exact ho he
              · exact hmem ⟨hr, hc.2⟩)]

theorem process_operations_char (s : Statement20201030) :
    (∀ o, SMap.get? (process_operations s).1 o
      = if o ∈ s.operations ∧ is_variable_rule o = false
          ∧ ((process_resources s).1).isEmpty = false
        then some (process_resources s).1 else none)
    ∧ (∀ o, SMap.get? (process_operations s).2 o
      = if o ∈ s.operations ∧ (varResValue s o).isEmpty = false
        then some (varResValue s o) else none)
    ∧ SMap.Sorted (process_operations s).1
    ∧ SMap.Sorted (process_operations s).2
    ∧ (∀ kv ∈ (process_operations s).1, kv.2 = (process_resources s).1)
    ∧ (∀ kv ∈ (process_operations s).2, kv.2 = varResValue s kv.1) := by
  have h := @process_operations_go s s.operations ([], [])
    (by simp [SMap.Sorted]) (by simp [SMap.Sorted]) (by simp) (by simp)
  obtain ⟨g1, g2, gs1, gs2, gv1, gv2⟩ := h
  exact ⟨g1, g2, gs1, gs2, gv1, gv2⟩

theorem process_operations_wf (s : Statement20201030) :
    OperationsWF (process_operations s).1
    ∧ OperationsWF (process_operations s).2
    ∧ OperationsNE (process_operations s).1
    ∧ OperationsNE (process_operations s).2 := by
  obtain ⟨g1, g2, gs1, gs2, gv1, gv2⟩ := process_operations_char s
  obtain ⟨-, -, hrs1, hrs2, -, -⟩ := process_resources_char s
  refine ⟨⟨gs1, ?_⟩, ⟨gs2, ?_⟩, ?_, ?_⟩
  · intro kv hkv
    rw [gv1 kv hkv]
    exact hrs1
  · intro kv hkv
    rw [gv2 kv hkv]
    exact varResValue_sorted s kv.1
  · intro kv hkv
    obtain ⟨k, v⟩ := kv
    have hget := SMap.get?_eq_some_of_mem gs1 hkv
    rw [g1 k] at hget
    by_cases hc : k ∈ s.operations ∧ is_variable_rule k = false
        ∧ ((process_resources s).1).isEmpty = false
    · rw [if_pos hc] at hget
      cases hget
      intro hnil
      have hnil' : (process_resources s).1 = [] := hnil
      rw [hnil'] at hc
      exact absurd hc.2.2 (by simp)
    · rw [if_neg hc] at hget
      exact absurd hget (by simp)
  · intro kv hkv
    obtain ⟨k, v⟩ := kv
    have hget := SMap.get?_eq_some_of_mem gs2 hkv
    rw [g2 k] at hget
    by_cases hc : k ∈ s.operations ∧ (varResValue s k).isEmpty = false
    · rw [if_pos hc] at hget
      cases hget
      intro hnil
      have hnil' : varResValue s k = [] := hnil
      rw [hnil'] at hc
      exact absurd hc.2 (by simp)
    · rw [if_neg hc] at hget
      exact absurd hget (by simp)

theorem varOpsValue_wf (s : Statement20201030) (i : String) :
    OperationsWF (varOpsValue s i) ∧ OperationsNE (varOpsValue s i) := by
  obtain ⟨hw1, hw2, hn1, hn2⟩ := process_operations_wf s
  unfold varOpsValue
  by_cases h : is_variable_rule i = true
  · rw [if_pos h]
    exact ⟨opsWF_merge hw1 hw2, opsNE_merge hn1 hn2⟩
  · rw [if_neg h]
    exact ⟨hw2, hn2⟩

theorem process_identities_go {s : Statement20201030} :
    ∀ (l : List String) (acc : Identities × Identities)
      (h1 : SMap.Sorted acc.1) (h2 : SMap.Sorted acc.2)
      (hv1 : ∀ kv ∈ acc.1, kv.2 = (process_operations s).1)
      (hv2 : ∀ kv ∈ acc.2, kv.2 = varOpsValue s kv.1),
    let out := l.foldl
      (fun acc identity =>
        let ops := process_operations s
        if is_variable_rule identity then
          (acc.1,
            Identities.insert acc.2 identity (Operations.merge ops.1 ops.2))
        else
          (Identities.insert acc.1 identity ops.1,
            Identities.insert acc.2 identity ops.2)) acc
    (∀ i, SMap.get? out.1 i
        = if i ∈ l ∧ is_variable_rule i = false
            ∧ ((process_operations s).1).isEmpty = false
          then some (process_operations s).1
          else SMap.get? acc.1 i)
      ∧ (∀ i, SMap.get? out.2 i
        = if i ∈ l ∧ (varOpsValue s i).isEmpty = false
          then some (varOpsValue s i)
          else SMap.get? acc.2 i)
      ∧ SMap.Sorted out.1 ∧ SMap.Sorted out.2
      ∧ (∀ kv ∈ out.1, kv.2 = (process_operations s).1)
      ∧ (∀ kv ∈ out.2, kv.2 = varOpsValue s kv.1) := by
  intro l
  induction l with
  | nil =>
    intro acc h1 h2 hv1 hv2
    refine ⟨fun i => ?_, fun i => ?_, h1, h2, hv1, hv2⟩
    · rw [if_neg (by simp)]
      rfl
    · rw [if_neg (by simp)]
      rfl
  | cons idp rest ih =>
    intro acc h1 h2 hv1 hv2
    simp only [List.foldl_cons]
    by_cases hvo : is_variable_rule idp = true
    · rw [if_pos hvo]
      have hins2 : SMap.Sorted (Identities.insert acc.2 idp
          (Operations.merge (process_operations s).1 (process_operations s).2)) := by
        rw [Identities.insert_eq_ids]
        exact SMap.sorted_insertSkip h2
      have hinv2 : ∀ kv ∈ Identities.insert acc.2 idp
          (Operations.merge (process_operations s).1 (process_operations s).2),
          kv.2 = varOpsValue s kv.1 := by
        rw [Identities.insert_eq_ids]
        exact SMap.kv_mem_insertSkip (fun kv => kv.2 = varOpsValue s kv.1) hv2
          (fun _ => by
            show Operations.merge (process_operations s).1 (process_operations s).2
              = varOpsValue s idp
            unfold varOpsValue
            rw [if_pos hvo])
          (fun k' a b ha hb => by
            have ha' : a = varOpsValue s k' := ha
            have hb' : b = varOpsValue s k' := hb
            show Operations.merge a b = varOpsValue s k'
            rw [ha', hb']
            exact Operations.merge_self_ops (varOpsValue_wf s k').1)
      obtain ⟨g1, g2, gs1, gs2, gv1, gv2⟩ :=
        ih (acc.1, Identities.insert acc.2 idp
          (Operations.merge (process_operations s).1 (process_operations s).2))
          h1 hins2 hv1 hinv2
      refine ⟨fun i => ?_, fun i => ?_, gs1, gs2, gv1, gv2⟩
      · rw [g1 i]
        by_cases hmem : i ∈ rest ∧ is_variable_rule i = false
            ∧ ((process_operations s).1).isEmpty = false
        · rw [if_pos hmem,
            if_pos ⟨List.mem_cons_of_mem _ hmem.1, hmem.2.1, hmem.2.2⟩]
        · rw [if_neg hmem]
          by_cases hmem2 : i ∈ idp :: rest ∧ is_variable_rule i = false
              ∧ ((process_operations s).1).isEmpty = false
          · exfalso
            rcases List.mem_cons.mp hmem2.1 with he | hr
            · rw [he, hvo] at hmem2
              exact Bool.false_ne_true hmem2.2.1.symm
            · exact hmem ⟨hr, hmem2.2⟩
          · rw [if_neg hmem2]
      · rw [g2 i]
        by_cases hi : i = idp
        · subst hi
          by_cases hmem : i ∈ rest ∧ (varOpsValue s i).isEmpty = false
          · rw [if_pos hmem,
              if_pos ⟨List.mem_cons_self _ _, hmem.2⟩]
          · rw [if_neg hmem]
            have hval : varOpsValue s i
                = Operations.merge (process_operations s).1 (process_operations s).2 := by
              unfold varOpsValue
              rw [if_pos hvo]
            dsimp only
            rw [Identities.insert_eq_ids, SMap.get?_insertSkip_self h2, ← hval]
            by_cases hemp : (varOpsValue s i).isEmpty = true
            · rw [if_pos hemp, combineO_none_right,
                if_neg (by intro hc; rw [hc.2] at hemp; exact Bool.false_ne_true hemp)]
            · rw [if_neg hemp]
              have hempf : (varOpsValue s i).isEmpty = false := by
                cases hb : (varOpsValue s i).isEmpty
                · rfl
                · exact absurd hb hemp
              rw [if_pos ⟨List.mem_cons_self _ _, hempf⟩]
              cases hget : SMap.get? acc.2 i with
              | none => rfl
              | some old =>
                have hold : old = varOpsValue s i :=
                  hv2 (i, old) (SMap.get?_mem hget)
                subst hold
                simp only [combineO]
                rw [Operations.merge_self_ops (varOpsValue_wf s i).1]
        · have hstep : SMap.get? (Identities.insert acc.2 idp
              (Operations.merge (process_operations s).1 (process_operations s).2)) i
              = SMap.get? acc.2 i := by
            rw [Identities.insert_eq_ids]
            exact SMap.get?_insertSkip_ne hi
          rw [hstep]
          by_cases hmem : i ∈ rest ∧ (varOpsValue s i).isEmpty = false
          · rw [if_pos hmem, if_pos ⟨List.mem_cons_of_mem _ hmem.1, hmem.2⟩]
          · rw [if_neg hmem, if_neg (by
              intro hc
              rcases List.mem_cons.mp hc.1 with he | hr
              · exact hi he
              · exact hmem ⟨hr, hc.2⟩)]
    · rw [if_neg hvo]
      have hvof : is_variable_rule idp = false := by
        cases hb : is_variable_rule idp
        · rfl
        · exact absurd hb hvo
      have hins1 : SMap.Sorted (Identities.insert acc.1 idp
          (process_operations s).1) := by
        rw [Identities.insert_eq_ids]
        exact SMap.sorted_insertSkip h1
      have hins2 : SMap.Sorted (Identities.insert acc.2 idp
          (process_operations s).2) := by
        rw [Identities.insert_eq_ids]
        exact SMap.sorted_insertSkip h2
      have hinv1 : ∀ kv ∈ Identities.insert acc.1 idp (process_operations s).1,
          kv.2 = (process_operations s).1 := by
        rw [Identities.insert_eq_ids]
        exact SMap.kv_mem_insertSkip (fun kv => kv.2 = (process_operations s).1)
          hv1 (fun _ => rfl)
          (fun k' a b ha hb => by
            obtain ⟨hw1, -, -, -⟩ := process_operations_wf s
            have ha' : a = (process_operations s).1 := ha
            have hb' : b = (process_operations s).1 := hb
            show Operations.merge a b = (process_operations s).1
            rw [ha', hb']
            exact Operations.merge_self_ops hw1)
      have hinv2 : ∀ kv ∈ Identities.insert acc.2 idp (process_operations s).2,
          kv.2 = varOpsValue s kv.1 := by
        rw [Identities.insert_eq_ids]
        exact SMap.kv_mem_insertSkip (fun kv => kv.2 = varOpsValue s kv.1) hv2
          (fun _ => by
            show (process_operations s).2 = varOpsValue s idp
            unfold varOpsValue
            rw [if_neg hvo])
          (fun k' a b ha hb => by
            have ha' : a = varOpsValue s k' := ha
            have hb' : b = varOpsValue s k' := hb
            show Operations.merge a b = varOpsValue s k'
            rw [ha', hb']
            exact Operations.merge_self_ops (varOpsValue_wf s k').1)
      obtain ⟨g1, g2, gs1, gs2, gv1, gv2⟩ :=
        ih (Identities.insert acc.1 idp (process_operations s).1,
          Identities.insert acc.2 idp (process_operations s).2)
          hins1 hins2 hinv1 hinv2
      refine ⟨fun i => ?_, fun i => ?_, gs1, gs2, gv1, gv2⟩
      · rw [g1 i]
        by_cases hi : i = idp
        · subst hi
          by_cases hmem : i ∈ rest ∧ is_variable_rule i = false
              ∧ ((process_operations s).1).isEmpty = false
          · rw [if_pos hmem,
              if_pos ⟨List.mem_cons_self _ _, hmem.2⟩]
          · rw [if_neg hmem]
            dsimp only
            rw [Identities.insert_eq_ids, SMap.get?_insertSkip_self h1]
            by_cases hemp : ((process_operations s).1).isEmpty = true
            · rw [if_pos hemp, combineO_none_right,
                if_neg (by intro hc; rw [hc.2.2] at hemp; exact Bool.false_ne_true hemp)]
            · rw [if_neg hemp]
              have hempf : ((process_operations s).1).isEmpty = false := by
                cases hb : ((process_operations s).1).isEmpty
                · rfl
                · exact absurd hb hemp
              rw [if_pos ⟨List.mem_cons_self _ _, hvof, hempf⟩]
              cases hget : SMap.get? acc.1 i with
              | none => rfl
              | some old =>
                have hold : old = (process_operations s).1 :=
                  hv1 (i, old) (SMap.get?_mem hget)
                subst hold
                simp only [combineO]
                obtain ⟨hw1, -, -, -⟩ := process_operations_wf s
                rw [Operations.merge_self_ops hw1]
        · have hstep : SMap.get? (Identities.insert acc.1 idp
              (process_operations s).1) i = SMap.get? acc.1 i := by
            rw [Identities.insert_eq_ids]
            exact SMap.get?_insertSkip_ne hi
          dsimp only
          rw [hstep]
          by_cases hmem : i ∈ rest ∧ is_variable_rule i = false
              ∧ ((process_operations s).1).isEmpty = false
          · rw [if_pos hmem,
              if_pos ⟨List.mem_cons_of_mem _ hmem.1, hmem.2⟩]
          · rw [if_neg hmem, if_neg (by
              intro hc
              rcases List.mem_cons.mp hc.1 with he | hr
              · exact hi he
              · exact hmem ⟨hr, hc.2⟩)]
      · rw [g2 i]
        by_cases hi : i = idp
        · subst hi
          by_cases hmem : i ∈ rest ∧ (varOpsValue s i).isEmpty = false
          · rw [if_pos hmem,
              if_pos ⟨List.mem_cons_self _ _, hmem.2⟩]
          · rw [if_neg hmem]
            have hval : varOpsValue s i = (process_operations s).2 := by
              unfold varOpsValue
              rw [if_neg hvo]
            dsimp only
            rw [Identities.insert_eq_ids, SMap.get?_insertSkip_self h2, ← hval]
            by_cases hemp : (varOpsValue s i).isEmpty = true
            · rw [if_pos hemp, combineO_none_right,
                if_neg (by intro hc; rw [hc.2] at hemp; exact Bool.false_ne_true hemp)]
            · rw [if_neg hemp]
              have hempf : (varOpsValue s i).isEmpty = false := by
                cases hb : (varOpsValue s i).isEmpty
                · rfl
                · exact absurd hb hemp
              rw [if_pos ⟨List.mem_cons_self _ _, hempf⟩]
              cases hget : SMap.get? acc.2 i with
              | none => rfl
              | some old =>
                have hold : old = varOpsValue s i :=
                  hv2 (i, old) (SMap.get?_mem hget)
                subst hold
                simp only [combineO]
                rw [Operations.merge_self_ops (varOpsValue_wf s i).1]
        · have hstep : SMap.get? (Identities.insert acc.2 idp
              (process_operations s).2) i = SMap.get? acc.2 i := by
            rw [Identities.insert_eq_ids]
            exact SMap.get?_insertSkip_ne hi
          dsimp only
          rw [hstep]
          by_cases hmem : i ∈ rest ∧ (varOpsValue s i).isEmpty = false
          · rw [if_pos hmem, if_pos ⟨List.mem_cons_of_mem _ hmem.1, hmem.2⟩]
          · rw [if_neg hmem, if_neg (by
              intro hc
              rcases List.mem_cons.mp hc.1 with he | hr
              · exact hi he
              · exact hmem ⟨hr, hc.2⟩)]

theorem process_identities_char (s : Statement20201030) :
    (∀ i, SMap.get? (process_identities s).1 i
      = if i ∈ s.identities ∧ is_variable_rule i = false
          ∧ ((process_operations s).1).isEmpty = false
        then some (process_operations s).1 else none)
    ∧ (∀ i, SMap.get? (process_identities s).2 i
      = if i ∈ s.identities ∧ (varOpsValue s i).isEmpty = false
        then some (varOpsValue s i) else none)
    ∧ SMap.Sorted (process_identities s).1
    ∧ SMap.Sorted (process_identities s).2
    ∧ (∀ kv ∈ (process_identities s).1, kv.2 = (process_operations s).1)
    ∧ (∀ kv ∈ (process_identities s).2, kv.2 = varOpsValue s kv.1) := by
  have h := @process_identities_go s s.identities ([], [])
    (by simp [SMap.Sorted]) (by simp [SMap.Sorted]) (by simp) (by simp)
  obtain ⟨g1, g2, gs1, gs2, gv1, gv2⟩ := h
  exact ⟨g1, g2, gs1, gs2, gv1, gv2⟩

theorem process_identities_wf (s : Statement20201030) :
    IdentitiesWF (process_identities s).1 ∧ IdentitiesWF (process_identities s).2
    ∧ IdentitiesNE (process_identities s).1
    ∧ IdentitiesNE (process_identities s).2 := by
  obtain ⟨g1, g2, gs1, gs2, gv1, gv2⟩ := process_identities_char s
  obtain ⟨hw1, hw2, hn1, hn2⟩ := process_operations_wf s
  refine ⟨⟨gs1, ?_⟩, ⟨gs2, ?_⟩, ?_, ?_⟩
  · intro kv hkv
    rw [gv1 kv hkv]
    exact hw1
  · intro kv hkv
    rw [gv2 kv hkv]
    exact (varOpsValue_wf s kv.1).1
  · intro kv hkv
    obtain ⟨k, v⟩ := kv
    have hget := SMap.get?_eq_some_of_mem gs1 hkv
    rw [g1 k] at hget
    by_cases hc : k ∈ s.identities ∧ is_variable_rule k = false
        ∧ ((process_operations s).1).isEmpty = false
    · rw [if_pos hc] at hget
      cases hget
      constructor
      · intro hnil
        have hnil' : (process_operations s).1 = [] := hnil
        rw [hnil'] at hc
        exact absurd hc.2.2 (by simp)
      · show OperationsNE (process_operations s).1
        exact hn1
    · rw [if_neg hc] at hget
      exact absurd hget (by simp)
  · intro kv hkv
    obtain ⟨k, v⟩ := kv
    have hget := SMap.get?_eq_some_of_mem gs2 hkv
    rw [g2 k] at hget
    by_cases hc : k ∈ s.identities ∧ (varOpsValue s k).isEmpty = false
    · rw [if_pos hc] at hget
      cases hget
      constructor
      · intro hnil
        have hnil' : varOpsValue s k = [] := hnil
        rw [hnil'] at hc
        exact absurd hc.2 (by simp)
      · show OperationsNE (varOpsValue s k)
        exact (varOpsValue_wf s k).2
    · rw [if_neg hc] at hget
      exact absurd hget (by simp)

theorem resStatic_get (s : Statement20201030) (r : String) (eo : EffectOrd) :
    SMap.get? (process_resources s).1 r = some eo
      ↔ r ∈ s.resources ∧ is_variable_rule r = false ∧ eo = s.effectOrd := by
  obtain ⟨g1, -, -, -, -, -⟩ := process_resources_char s
  rw [g1 r]
  by_cases hc : r ∈ s.resources ∧ is_variable_rule r = false
  · rw [if_pos hc]
    constructor
    · intro h
      exact ⟨hc.1, hc.2, (Option.some.inj h).symm⟩
    · intro h
      rw [h.2.2]
  · rw [if_neg hc]
    constructor
    · intro h
      exact absurd h (by simp)
    · intro h
      exact absurd ⟨h.1, h.2.1⟩ hc

theorem resVar_get (s : Statement20201030) (r : String) (eo : EffectOrd) :
    SMap.get? (process_resources s).2 r = some eo
      ↔ r ∈ s.resources ∧ is_variable_rule r = true ∧ eo = s.effectOrd := by
  obtain ⟨-, g2, -, -, -, -⟩ := process_resources_char s
  rw [g2 r]
  by_cases hc : r ∈ s.resources ∧ is_variable_rule r = true
  · rw [if_pos hc]
    constructor
    · intro h
      exact ⟨hc.1, hc.2, (Option.some.inj h).symm⟩
    · intro h
      rw [h.2.2]
  · rw [if_neg hc]
    constructor
    · intro h
      exact absurd h (by simp)
    · intro h
      exact absurd ⟨h.1, h.2.1⟩ hc

theorem resAll_get (s : Statement20201030) (r : String) (eo : EffectOrd) :
    SMap.get? (Resources.merge (process_resources s).1 (process_resources s).2) r
      = some eo ↔ r ∈ s.resources ∧ eo = s.effectOrd := by
  obtain ⟨-, -, hs1, hs2, -, -⟩ := process_resources_char s
  rw [Resources.get?_merge hs1 hs2]
  by_cases hv : is_variable_rule r = true
  · have h1 : SMap.get? (process_resources s).1 r = none := by
      cases hh : SMap.get? (process_resources s).1 r with
      | none => rfl
      | some e =>
        have := (resStatic_get s r e).mp hh
        rw [hv] at this
        exact absurd this.2.1 (by simp)
    rw [h1, combineO_none_left]
    rw [resVar_get]
    constructor
    · intro h
      exact ⟨h.1, h.2.2⟩
    · intro h
      exact ⟨h.1, hv, h.2⟩
  · have hvf : is_variable_rule r = false := by
      cases hb : is_variable_rule r
      · rfl
      · exact absurd hb hv
    have h2 : SMap.get? (process_resources s).2 r = none := by
      cases hh : SMap.get? (process_resources s).2 r with
      | none => rfl
      | some e =>
        have := (resVar_get s r e).mp hh
        rw [hvf] at this
        exact absurd this.2.1 (by simp)
    rw [h2, combineO_none_right]
    rw [resStatic_get]
    constructor
    · intro h
      exact ⟨h.1, h.2.2⟩
    · intro h
      exact ⟨h.1, hvf, h.2⟩

theorem varResValue_get (s : Statement20201030) (o r : String) (eo : EffectOrd) :
    SMap.get? (varResValue s o) r = some eo
      ↔ r ∈ s.resources
        ∧ (is_variable_rule o = true ∨ is_variable_rule r = true)
        ∧ eo = s.effectOrd := by
  unfold varResValue
  by_cases hvo : is_variable_rule o = true
  · rw [if_pos hvo, resAll_get]
    constructor
    · intro h
      exact ⟨h.1, Or.inl hvo, h.2⟩
    · intro h
      exact ⟨h.1, h.2.2⟩
  · rw [if_neg hvo, resVar_get]
    constructor
    · intro h
      exact ⟨h.1, Or.inr h.2.1, h.2.2⟩
    · intro h
      rcases h.2.1 with hc | hc
      · exact absurd hc hvo
      · exact ⟨h.1, hc, h.2.2⟩

theorem SMap.isEmpty_false_of_get {α : Type} {m : SMap α} {k : String} {v : α}
    (h : SMap.get? m k = some v) : m.isEmpty = false := by
  cases m with
  | nil => exact absurd h (by simp [SMap.get?])
  | cons hd rest => rfl

theorem staticFrag_ops_find (s : Statement20201030) (o r : String)
    (eo : EffectOrd) :
    Operations.find (process_operations s).1 o r = some eo
      ↔ o ∈ s.operations ∧ is_variable_rule o = false
        ∧ r ∈ s.resources ∧ is_variable_rule r = false
        ∧ eo = s.effectOrd := by
  obtain ⟨g1, -, -, -, -, -⟩ := process_operations_char s
  unfold Operations.find
  rw [g1 o]
  by_cases hc : o ∈ s.operations ∧ is_variable_rule o = false
      ∧ ((process_resources s).1).isEmpty = false
  · rw [if_pos hc]
    simp only [Option.some_bind]
    rw [resStatic_get]
    constructor
    · intro h
      exact ⟨hc.1, hc.2.1, h.1, h.2.1, h.2.2⟩
    · intro h
      exact ⟨h.2.2.1, h.2.2.2.1, h.2.2.2.2⟩
  · rw [if_neg hc]
    simp only [Option.none_bind]
    constructor
    · intro h
      exact absurd h (by simp)
    · intro h
      exfalso
      apply hc
      refine ⟨h.1, h.2.1, ?_⟩
      have hget : SMap.get? (process_resources s).1 r = some s.effectOrd :=
        (resStatic_get s r s.effectOrd).mpr ⟨h.2.2.1, h.2.2.2.1, rfl⟩
      exact SMap.isEmpty_false_of_get hget

theorem varFrag_ops_find (s : Statement20201030) (o r : String)
    (eo : EffectOrd) :
    Operations.find (process_operations s).2 o r = some eo
      ↔ o ∈ s.operations ∧ r ∈ s.resources
        ∧ (is_variable_rule o = true ∨ is_variable_rule r = true)
        ∧ eo = s.effectOrd := by
  obtain ⟨-, g2, -, -, -, -⟩ := process_operations_char s
  unfold Operations.find
  rw [g2 o]
  by_cases hc : o ∈ s.operations ∧ (varResValue s o).isEmpty = false
  · rw [if_pos hc]
    simp only [Option.some_bind]
    rw [varResValue_get]
    constructor
    · intro h
      exact ⟨hc.1, h.1, h.2.1, h.2.2⟩
    · intro h
      exact ⟨h.2.1, h.2.2.1, h.2.2.2⟩
  · rw [if_neg hc]
    simp only [Option.none_bind]
    constructor
    · intro h
      exact absurd h (by simp)
    · intro h
      exfalso
      apply hc
      refine ⟨h.1, ?_⟩
      have hget : SMap.get? (varResValue s o) r = some s.effectOrd :=
        (varResValue_get s o r s.effectOrd).mpr ⟨h.2.1, h.2.2.1, rfl⟩
      exact SMap.isEmpty_false_of_get hget

theorem opsAll_find (s : Statement20201030) (o r : String) (eo : EffectOrd) :
    Operations.find
        (Operations.merge (process_operations s).1 (process_operations s).2) o r
      = some eo ↔ o ∈ s.operations ∧ r ∈ s.resources ∧ eo = s.effectOrd := by
  obtain ⟨hw1, hw2, -, -⟩ := process_operations_wf s
  rw [Operations.find_merge_ops hw1 hw2]
  by_cases hv : is_variable_rule o = true ∨ is_variable_rule r = true
  · have h1 : Operations.find (process_operations s).1 o r = none := by
      cases hh : Operations.find (process_operations s).1 o r with
      | none => rfl
      | some e =>
        have := (staticFrag_ops_find s o r e).mp hh
        rcases hv with hc | hc
        · rw [hc] at this
          exact absurd this.2.1 (by simp)
        · rw [hc] at this
          exact absurd this.2.2.2.1 (by simp)
    rw [h1, combineO_none_left, varFrag_ops_find]
    constructor
    · intro h
      exact ⟨h.1, h.2.1, h.2.2.2⟩
    · intro h
      exact ⟨h.1, h.2.1, hv, h.2.2⟩
  · have hvo : is_variable_rule o = false := by
      cases hb : is_variable_rule o
      · rfl
      · exact absurd (Or.inl hb) hv
    have hvr : is_variable_rule r = false := by
      cases hb : is_variable_rule r
      · rfl
      · exact absurd (Or.inr hb) hv
    have h2 : Operations.find (process_operations s).2 o r = none := by
      cases hh : Operations.find (process_operations s).2 o r with
      | none => rfl
      | some e =>
        have := (varFrag_ops_find s o r e).mp hh
        rcases this.2.2.1 with hc | hc
        · rw [hvo] at hc
          exact absurd hc (by simp)
        · rw [hvr] at hc
          exact absurd hc (by simp)
    rw [h2, combineO_none_right, staticFrag_ops_find]
    constructor
    · intro h
      exact ⟨h.1, h.2.2.1, h.2.2.2.2⟩
    · intro h
      exact ⟨h.1, hvo, h.2.1, hvr, h.2.2⟩

theorem varOpsValue_find (s : Statement20201030) (i o r : String)
    (eo : EffectOrd) :
    Operations.find (varOpsValue s i) o r = some eo
      ↔ o ∈ s.operations ∧ r ∈ s.resources
        ∧ (is_variable_rule i = true ∨ is_variable_rule o = true
            ∨ is_variable_rule r = true)
        ∧ eo = s.effectOrd := by
  unfold varOpsValue
  by_cases hvi : is_variable_rule i = true
  · rw [if_pos hvi, opsAll_find]
    constructor
    · intro h
      exact ⟨h.1, h.2.1, Or.inl hvi, h.2.2⟩
    · intro h
      exact ⟨h.1, h.2.1, h.2.2.2⟩
  · rw [if_neg hvi, varFrag_ops_find]
    constructor
    · intro h
      exact ⟨h.1, h.2.1, Or.inr h.2.2.1, h.2.2.2⟩
    · intro h
      rcases h.2.2.1 with hc | hc
      · exact absurd hc hvi
      · exact ⟨h.1, h.2.1, hc, h.2.2.2⟩

theorem Operations.find_ne_nil {m : Operations} {o r : String} {eo : EffectOrd}
    (h : Operations.find m o r = some eo) : m.isEmpty = false := by
  unfold Operations.find at h
  cases hg : SMap.get? m o with
  | none =>
    rw [hg] at h
    exact absurd h (by simp)
  | some v => exact SMap.isEmpty_false_of_get hg

theorem staticFrag_find (s : Statement20201030) (i o r : String)
    (eo : EffectOrd) :
    Identities.find (process_identities s).1 i o r = some eo
      ↔ i ∈ s.identities ∧ is_variable_rule i = false
        ∧ o ∈ s.operations ∧ is_variable_rule o = false
        ∧ r ∈ s.resources ∧ is_variable_rule r = false
        ∧ eo = s.effectOrd := by
  obtain ⟨g1, -, -, -, -, -⟩ := process_identities_char s
  unfold Identities.find
  rw [g1 i]
  by_cases hc : i ∈ s.identities ∧ is_variable_rule i = false
      ∧ ((process_operations s).1).isEmpty = false
  · rw [if_pos hc]
    simp only [Option.some_bind]
    rw [staticFrag_ops_find]
    constructor
    · intro h
      exact ⟨hc.1, hc.2.1, h.1, h.2.1, h.2.2.1, h.2.2.2.1, h.2.2.2.2⟩
    · intro h
      exact ⟨h.2.2.1, h.2.2.2.1, h.2.2.2.2.1, h.2.2.2.2.2.1, h.2.2.2.2.2.2⟩
  · rw [if_neg hc]
    simp only [Option.none_bind]
    constructor
    · intro h
      exact absurd h (by simp)
    · intro h
      exfalso
      apply hc
      refine ⟨h.1, h.2.1, ?_⟩
      have hfind : Operations.find (process_operations s).1 o r
          = some s.effectOrd :=
        (staticFrag_ops_find s o r s.effectOrd).mpr
          ⟨h.2.2.1, h.2.2.2.1, h.2.2.2.2.1, h.2.2.2.2.2.1, rfl⟩
      exact Operations.find_ne_nil hfind

theorem varFrag_find (s : Statement20201030) (i o r : String)
    (eo : EffectOrd) :
    Identities.find (process_identities s).2 i o r = some eo
      ↔ i ∈ s.identities ∧ o ∈ s.operations ∧ r ∈ s.resources
        ∧ (is_variable_rule i = true ∨ is_variable_rule o = true
            ∨ is_variable_rule r = true)
        ∧ eo = s.effectOrd := by
  obtain ⟨-, g2, -, -, -, -⟩ := process_identities_char s
  unfold Identities.find
  rw [g2 i]
  by_cases hc : i ∈ s.identities ∧ (varOpsValue s i).isEmpty = false
  · rw [if_pos hc]
    simp only [Option.some_bind]
    rw [varOpsValue_find]
    constructor
    · intro h
      exact ⟨hc.1, h.1, h.2.1, h.2.2.1, h.2.2.2⟩
    · intro h
      exact ⟨h.2.1, h.2.2.1, h.2.2.2.1, h.2.2.2.2⟩
  · rw [if_neg hc]
    simp only [Option.none_bind]
    constructor
    · intro h
      exact absurd h (by simp)
    · intro h
      exfalso
      apply hc
      refine ⟨h.1, ?_⟩
      have hfind : Operations.find (varOpsValue s i) o r = some s.effectOrd :=
        (varOpsValue_find s i o r s.effectOrd).mpr
          ⟨h.2.1, h.2.2.1, h.2.2.2.1, rfl⟩
      exact Operations.find_ne_nil hfind

theorem effectOrd_order (s : Statement20201030) : s.effectOrd.order = s.order := by
  unfold Statement20201030.effectOrd
  cases s.effect <;> rfl

theorem staticContribution_order {s : Statement20201030} {i o r : String}
    {eo : EffectOrd} (h : staticContribution s i o r = some eo) :
    eo.order = s.order := by
  unfold staticContribution at h
  have := (staticFrag_find s i o r eo).mp h
  rw [this.2.2.2.2.2.2]
  exact effectOrd_order s

theorem variableContribution_order {s : Statement20201030} {i o r : String}
    {eo : EffectOrd} (h : variableContribution s i o r = some eo) :
    eo.order = s.order := by
  unfold variableContribution at h
  have := (varFrag_find s i o r eo).mp h
  rw [this.2.2.2.2]
  exact effectOrd_order s

theorem assignOrders_ge : ∀ (n : Nat) (l : List Statement20201030),
    ∀ s ∈ assignOrders n l, n ≤ s.order := by
  intro n l
  induction l generalizing n with
  | nil =>
    intro s hs
    exact absurd hs (List.not_mem_nil _)
  | cons hd rest ih =>
    intro s hs
    simp only [assignOrders] at hs
    rcases List.mem_cons.mp hs with he | hr
    · rw [he]
    · exact Nat.le_of_succ_le (ih (n + 1) s hr)

theorem assignOrders_lt : ∀ (n : Nat) (l : List Statement20201030),
    List.Pairwise (fun a b => a.order < b.order) (assignOrders n l) := by
  intro n l
  induction l generalizing n with
  | nil => exact List.Pairwise.nil
  | cons hd rest ih =>
    simp only [assignOrders]
    refine List.pairwise_cons.mpr ⟨?_, ih (n + 1)⟩
    intro s hs
    exact Nat.lt_of_lt_of_le (Nat.lt_succ_self n) (assignOrders_ge (n + 1) rest s hs)

theorem withOrders_lt (statements : List Statement20201030) :
    List.Pairwise (fun a b => a.order < b.order) (withOrders statements) :=
  assignOrders_lt 0 statements

theorem foldl_combineO_absorb {a : EffectOrd} :
    ∀ (l : List (Option EffectOrd)),
    (∀ y ∈ l, ∀ b : EffectOrd, y = some b → a.order < b.order) →
    l.foldl (combineO EffectOrd.merge) (some a) = some a := by
  intro l
  induction l with
  | nil => intro _; rfl
  | cons y rest ih =>
    intro h
    have hstep : combineO EffectOrd.merge (some a) y = some a := by
      cases y with
      | none => rfl
      | some b =>
        simp only [combineO]
        rw [EffectOrd.merge_eq_left
          (Nat.le_of_lt (h (some b) (List.mem_cons_self _ _) b rfl))]
    simp only [List.foldl_cons, hstep]
    exact ih (fun y hy b hb => h y (List.mem_cons_of_mem _ hy) b hb)

theorem foldl_combineO_head? :
    ∀ (l : List (Option EffectOrd)),
    List.Pairwise (fun x y => ∀ a b : EffectOrd,
      x = some a → y = some b → a.order < b.order) l →
    l.foldl (combineO EffectOrd.merge) none = l.reduceOption.head? := by
  intro l
  induction l with
  | nil => intro _; rfl
  | cons x rest ih =>
    intro h
    cases x with
    | none =>
      simp only [List.foldl_cons, combineO_none_left, List.reduceOption_cons_of_none]
      exact ih (List.Pairwise.of_cons h)
    | some a =>
      simp only [List.foldl_cons, combineO_none_left,
        List.reduceOption_cons_of_some]
      rw [foldl_combineO_absorb rest
        (fun y hy b hb => (List.pairwise_cons.mp h).1 y hy a b rfl hb)]
      rfl

theorem buildRules_go :
    ∀ (l : List Statement20201030) (acc : Identities × Identities)
      (hw1 : IdentitiesWF acc.1) (hw2 : IdentitiesWF acc.2)
      (hn1 : IdentitiesNE acc.1) (hn2 : IdentitiesNE acc.2),
    let out := l.foldl (fun acc s => process_statement s acc) acc
    (∀ i o r, Identities.find out.1 i o r
        = (l.map (fun s => staticContribution s i o r)).foldl
            (combineO EffectOrd.merge) (Identities.find acc.1 i o r))
      ∧ (∀ i o r, Identities.find out.2 i o r
        = (l.map (fun s => variableContribution s i o r)).foldl
            (combineO EffectOrd.merge) (Identities.find acc.2 i o r))
      ∧ IdentitiesWF out.1 ∧ IdentitiesWF out.2
      ∧ IdentitiesNE out.1 ∧ IdentitiesNE out.2 := by
  intro l
  induction l with
  | nil =>
    intro acc hw1 hw2 hn1 hn2
    exact ⟨fun i o r => rfl, fun i o r => rfl, hw1, hw2, hn1, hn2⟩
  | cons s rest ih =>
    intro acc hw1 hw2 hn1 hn2
    obtain ⟨fw1, fw2, fn1, fn2⟩ := process_identities_wf s
    have hw1' : IdentitiesWF (Identities.merge acc.1 (process_identities s).1) :=
      idsWF_merge hw1 fw1
    have hw2' : IdentitiesWF (Identities.merge acc.2 (process_identities s).2) :=
      idsWF_merge hw2 fw2
    have hn1' : IdentitiesNE (Identities.merge acc.1 (process_identities s).1) :=
      idsNE_merge hn1 fn1
    have hn2' : IdentitiesNE (Identities.merge acc.2 (process_identities s).2) :=
      idsNE_merge hn2 fn2
    obtain ⟨g1, g2, gw1, gw2, gn1, gn2⟩ :=
      ih (process_statement s acc) hw1' hw2' hn1' hn2'
    refine ⟨fun i o r => ?_, fun i o r => ?_, gw1, gw2, gn1, gn2⟩
    · simp only [List.foldl_cons, List.map_cons]
      rw [g1 i o r]
      have hfm : Identities.find (process_statement s acc).1 i o r
          = combineO EffectOrd.merge (Identities.find acc.1 i o r)
              (staticContribution s i o r) :=
        Identities.find_merge_ids hw1 fw1 i o r
      rw [hfm]
    · simp only [List.foldl_cons, List.map_cons]
      rw [g2 i o r]
      have hfm : Identities.find (process_statement s acc).2 i o r
          = combineO EffectOrd.merge (Identities.find acc.2 i o r)
              (variableContribution s i o r) :=
        Identities.find_merge_ids hw2 fw2 i o r
      rw [hfm]

theorem emptyIdentitiesWF : IdentitiesWF ([] : Identities) := by
  constructor
  · exact List.Pairwise.nil
  · intro kv hkv
    exact absurd hkv (List.not_mem_nil _)

theorem emptyIdentitiesNE : IdentitiesNE ([] : Identities) := by
  intro kv hkv
  exact absurd hkv (List.not_mem_nil _)

theorem process_statement_comm (x y : Statement20201030)
    (acc : Identities × Identities) (hxy : x.order ≠ y.order)
    (hw1 : IdentitiesWF acc.1) (hw2 : IdentitiesWF acc.2)
    (hn1 : IdentitiesNE acc.1) (hn2 : IdentitiesNE acc.2) :
    process_statement x (process_statement y acc)
      = process_statement y (process_statement x acc) := by
  obtain ⟨xw1, xw2, xn1, xn2⟩ := process_identities_wf x
  obtain ⟨yw1, yw2, yn1, yn2⟩ := process_identities_wf y
  have ext1 : Identities.merge (Identities.merge acc.1 (process_identities y).1)
        (process_identities x).1
      = Identities.merge (Identities.merge acc.1 (process_identities x).1)
        (process_identities y).1 := by
    apply Identities.ext_find_ids
      (idsWF_merge (idsWF_merge hw1 yw1) xw1)
      (idsWF_merge (idsWF_merge hw1 xw1) yw1)
      (idsNE_merge (idsNE_merge hn1 yn1) xn1)
      (idsNE_merge (idsNE_merge hn1 xn1) yn1)
    intro i o r
    rw [Identities.find_merge_ids (idsWF_merge hw1 yw1) xw1,
      Identities.find_merge_ids hw1 yw1,
      Identities.find_merge_ids (idsWF_merge hw1 xw1) yw1,
      Identities.find_merge_ids hw1 xw1]
    exact combineO_right_comm EffectOrd.merge_assoc
      (fun vb vc hb hc => EffectOrd.merge_comm_of_ne (by
        have hb' : staticContribution y i o r = some vb := hb
        have hc' : staticContribution x i o r = some vc := hc
        rw [staticContribution_order hb', staticContribution_order hc']
        exact fun he => hxy he.symm))
  have ext2 : Identities.merge (Identities.merge acc.2 (process_identities y).2)
        (process_identities x).2
      = Identities.merge (Identities.merge acc.2 (process_identities x).2)
        (process_identities y).2 := by
    apply Identities.ext_find_ids
      (idsWF_merge (idsWF_merge hw2 yw2) xw2)
      (idsWF_merge (idsWF_merge hw2 xw2) yw2)
      (idsNE_merge (idsNE_merge hn2 yn2) xn2)
      (idsNE_merge (idsNE_merge hn2 xn2) yn2)
    intro i o r
    rw [Identities.find_merge_ids (idsWF_merge hw2 yw2) xw2,
      Identities.find_merge_ids hw2 yw2,
      Identities.find_merge_ids (idsWF_merge hw2 xw2) yw2,
      Identities.find_merge_ids hw2 xw2]
    exact combineO_right_comm EffectOrd.merge_assoc
      (fun vb vc hb hc => EffectOrd.merge_comm_of_ne (by
        have hb' : variableContribution y i o r = some vb := hb
        have hc' : variableContribution x i o r = some vc := hc
        rw [variableContribution_order hb', variableContribution_order hc']
        exact fun he => hxy he.symm))
  unfold process_statement
  exact Prod.ext ext1 ext2

theorem buildFold_perm {l₁ l₂ : List Statement20201030} (hp : l₁.Perm l₂)
    (hord : List.Pairwise (fun a b => a.order ≠ b.order) l₁) :
    ∀ (acc : Identities × Identities),
    IdentitiesWF acc.1 → IdentitiesWF acc.2 →
    IdentitiesNE acc.1 → IdentitiesNE acc.2 →
    l₁.foldl (fun acc s => process_statement s acc) acc
      = l₂.foldl (fun acc s => process_statement s acc) acc := by
  induction hp with
  | nil => intro acc _ _ _ _; rfl
  | cons s hrest ih =>
    intro acc hw1 hw2 hn1 hn2
    obtain ⟨fw1, fw2, fn1, fn2⟩ := process_identities_wf s
    simp only [List.foldl_cons]
    exact ih (List.Pairwise.of_cons hord) (process_statement s acc)
      (idsWF_merge hw1 fw1) (idsWF_merge hw2 fw2)
      (idsNE_merge hn1 fn1) (idsNE_merge hn2 fn2)
  | swap x y l =>
    intro acc hw1 hw2 hn1 hn2
    simp only [List.foldl_cons]
    have hxy : y.order ≠ x.order := by
      have := (List.pairwise_cons.mp hord).1 x (List.mem_cons_self _ _)
      exact this
    rw [process_statement_comm x y acc (fun he => hxy he.symm) hw1 hw2 hn1 hn2]
  | trans h₁ h₂ ih₁ ih₂ =>
    intro acc hw1 hw2 hn1 hn2
    rw [ih₁ hord acc hw1 hw2 hn1 hn2]
    have hord₂ := (List.Perm.pairwise_iff
      (fun h he => h he.symm) h₁).mp hord
    exact ih₂ hord₂ acc hw1 hw2 hn1 hn2

theorem buildRules_wf (statements : List Statement20201030) :
    IdentitiesWF (buildRules statements).1 ∧ IdentitiesWF (buildRules statements).2
    ∧ IdentitiesNE (buildRules statements).1
    ∧ IdentitiesNE (buildRules statements).2 := by
  obtain ⟨-, -, gw1, gw2, gn1, gn2⟩ :=
    buildRules_go (withOrders statements) ([], []) emptyIdentitiesWF
      emptyIdentitiesWF emptyIdentitiesNE emptyIdentitiesNE
  exact ⟨gw1, gw2, gn1, gn2⟩

theorem build_policy_wf (statements : List Statement20201030)
    (matcher : Request → String → String → Bool) (substituter : Substituter)
    (dd : Decision) :
    PolicyWF (PolicyBuilder.build statements matcher substituter dd) := by
  obtain ⟨hw1, hw2, -, -⟩ := buildRules_wf statements
  exact ⟨hw1, hw2⟩

theorem buildRules_find (statements : List Statement20201030) (i o r : String) :
    Identities.find (buildRules statements).1 i o r
      = ((withOrders statements).map
          (fun s => staticContribution s i o r)).reduceOption.head?
    ∧ Identities.find (buildRules statements).2 i o r
      = ((withOrders statements).map
          (fun s => variableContribution s i o r)).reduceOption.head? := by
  obtain ⟨g1, g2, -, -, -, -⟩ :=
    buildRules_go (withOrders statements) ([], []) emptyIdentitiesWF
      emptyIdentitiesWF emptyIdentitiesNE emptyIdentitiesNE
  have horder := withOrders_lt statements
  unfold buildRules
  constructor
  · rw [g1 i o r]
    have hfind : Identities.find (([], []) : Identities × Identities).1 i o r
        = none := rfl
    rw [hfind]
    apply foldl_combineO_head?
    rw [List.pairwise_map]
    apply List.Pairwise.imp ?_ horder
    intro a b hab ea eb hea heb
    rw [staticContribution_order hea, staticContribution_order heb]
    exact hab
  · rw [g2 i o r]
    have hfind : Identities.find (([], []) : Identities × Identities).2 i o r
        = none := rfl
    rw [hfind]
    apply foldl_combineO_head?
    rw [List.pairwise_map]
    apply List.Pairwise.imp ?_ horder
    intro a b hab ea eb hea heb
    rw [variableContribution_order hea, variableContribution_order heb]
    exact hab

theorem staticResourceScan_find? (p : Policy) (r : Request) :
    ∀ res : Resources,
    staticResourceScan p r res
      = match res.find? (fun c => p.resource_matcher r r.resource c.1) with
        | some c => c.2.effect
        | none => Effect.undefined := by
  intro res
  induction res with
  | nil => rfl
  | cons hd rest ih =>
    obtain ⟨pat, eff⟩ := hd
    simp only [staticResourceScan, List.find?_cons]
    by_cases hm : p.resource_matcher r r.resource pat = true
    · rw [if_pos hm, hm]
    · have hmf : p.resource_matcher r r.resource pat = false := by
        cases hb : p.resource_matcher r r.resource pat
        · rfl
        · exact absurd hb hm
      rw [if_neg hm, hmf]
      exact ih

theorem eval_static_spec (p : Policy) (r : Request) :
    p.eval_static_rules r = .ok (specStaticPhase p r) := by
  unfold Policy.eval_static_rules specStaticPhase
  cases SMap.get? p.static_rules r.identity with
  | none => rfl
  | some ops =>
    dsimp only
    cases SMap.get? ops r.operation with
    | none => rfl
    | some res =>
      dsimp only
      rw [staticResourceScan_find? p r res]

theorem variableResourceScan_find? (p : Policy) (r : Request)
    (vres : String → String)
    (hres : ∀ v, p.substituter.visit_resource v r = .ok (vres v)) :
    ∀ res : Resources,
    variableResourceScan p r res
      = .ok (match res.find?
            (fun rc => p.resource_matcher r r.resource (vres rc.1)) with
        | some rc => rc.2.effect
        | none => Effect.undefined) := by
  intro res
  induction res with
  | nil => rfl
  | cons hd rest ih =>
    obtain ⟨pat, eff⟩ := hd
    simp only [variableResourceScan, List.find?_cons, hres pat]
    by_cases hm : p.resource_matcher r r.resource (vres pat) = true
    · rw [if_pos hm, hm]
    · have hmf : p.resource_matcher r r.resource (vres pat) = false := by
        cases hb : p.resource_matcher r r.resource (vres pat)
        · rfl
        · exact absurd hb hm
      rw [if_neg hm, hmf]
      exact ih

theorem variableIdentityScan_find? (p : Policy) (r : Request)
    (vid vres : String → String)
    (hid : ∀ v, p.substituter.visit_identity v r = .ok (vid v))
    (hres : ∀ v, p.substituter.visit_resource v r = .ok (vres v)) :
    ∀ m : Identities,
    variableIdentityScan p r m
      = .ok (match m.find? (fun c => vid c.1 = r.identity) with
        | none => Effect.undefined
        | some c =>
          match SMap.get? c.2 r.operation with
          | none => Effect.undefined
          | some res =>
            match res.find?
                (fun rc => p.resource_matcher r r.resource (vres rc.1)) with
            | some rc => rc.2.effect
            | none => Effect.undefined) := by
  intro m
  induction m with
  | nil => rfl
  | cons hd rest ih =>
    obtain ⟨idp, ops⟩ := hd
    simp only [variableIdentityScan, List.find?_cons, hid idp]
    by_cases hm : vid idp = r.identity
    · rw [if_pos hm]
      have hdec : (decide (vid (idp, ops).1 = r.identity)) = true := by
        simp [hm]
      rw [hdec]
      dsimp only
      cases SMap.get? ops r.operation with
      | none => rfl
      | some res =>
        dsimp only
        exact variableResourceScan_find? p r vres hres res
    · rw [if_neg hm]
      have hdec : (decide (vid (idp, ops).1 = r.identity)) = false := by
        simp [hm]
      rw [hdec]
      dsimp only
      exact ih

theorem eval_variable_spec (p : Policy) (r : Request)
    (vid vres : String → String)
    (hid : ∀ v, p.substituter.visit_identity v r = .ok (vid v))
    (hres : ∀ v, p.substituter.visit_resource v r = .ok (vres v)) :
    p.eval_variable_rules r = .ok (specVariablePhase p r vid vres) := by
  unfold Policy.eval_variable_rules specVariablePhase
  rw [variableIdentityScan_find? p r vid vres hid hres p.variable_rules]

theorem variableResourceScan_isOk (p : Policy) (r : Request)
    (hres : ∀ v, (p.substituter.visit_resource v r).isOk = true) :
    ∀ res : Resources, (variableResourceScan p r res).isOk = true := by
  intro res
  induction res with
  | nil => rfl
  | cons hd rest ih =>
    obtain ⟨pat, eff⟩ := hd
    simp only [variableResourceScan]
    cases hv : p.substituter.visit_resource pat r with
    | error e =>
      have := hres pat
      rw [hv] at this
      exact absurd this (by simp [Except.isOk, Except.toBool])
    | ok resolved =>
      dsimp only
      by_cases hm : p.resource_matcher r r.resource resolved = true
      · rw [if_pos hm]
        rfl
      · rw [if_neg hm]
        exact ih

theorem variableIdentityScan_isOk (p : Policy) (r : Request)
    (hid : ∀ v, (p.substituter.visit_identity v r).isOk = true)
    (hres : ∀ v, (p.substituter.visit_resource v r).isOk = true) :
    ∀ m : Identities, (variableIdentityScan p r m).isOk = true := by
  intro m
  induction m with
  | nil => rfl
  | cons hd rest ih =>
    obtain ⟨idp, ops⟩ := hd
    simp only [variableIdentityScan]
    cases hv : p.substituter.visit_identity idp r with
    | error e =>
      have := hid idp
      rw [hv] at this
      exact absurd this (by simp [Except.isOk, Except.toBool])
    | ok resolved =>
      dsimp only
      by_cases hm : resolved = r.identity
      · rw [if_pos hm]
        cases SMap.get? ops r.operation with
        | none => rfl
        | some res => exact variableResourceScan_isOk p r hres res
      · rw [if_neg hm]
        exact ih

theorem variableResourceScan_error (p : Policy) (r : Request) (e : Error) :
    ∀ res : Resources, variableResourceScan p r res = .error e →
    ∃ rc ∈ res, p.substituter.visit_resource rc.1 r = .error e := by
  intro res
  induction res with
  | nil =>
    intro h
    exact absurd h (by simp [variableResourceScan])
  | cons hd rest ih =>
    intro h
    obtain ⟨pat, eff⟩ := hd
    simp only [variableResourceScan] at h
    cases hv : p.substituter.visit_resource pat r with
    | error e' =>
      rw [hv] at h
      cases h
      exact ⟨(pat, eff), List.mem_cons_self _ _, hv⟩
    | ok resolved =>
      rw [hv] at h
      dsimp only at h
      by_cases hm : p.resource_matcher r r.resource resolved = true
      · rw [if_pos hm] at h
        exact absurd h (by simp)
      · rw [if_neg hm] at h
        obtain ⟨rc, hrc, herr⟩ := ih h
        exact ⟨rc, List.mem_cons_of_mem _ hrc, herr⟩

theorem variableIdentityScan_error (p : Policy) (r : Request) (e : Error) :
    ∀ m : Identities, variableIdentityScan p r m = .error e →
    ∃ kv ∈ m, p.substituter.visit_identity kv.1 r = .error e
      ∨ ∃ res, SMap.get? kv.2 r.operation = some res
        ∧ ∃ rc ∈ res, p.substituter.visit_resource rc.1 r = .error e := by
  intro m
  induction m with
  | nil =>
    intro h
    exact absurd h (by simp [variableIdentityScan])
  | cons hd rest ih =>
    intro h
    obtain ⟨idp, ops⟩ := hd
    simp only [variableIdentityScan] at h
    cases hv : p.substituter.visit_identity idp r with
    | error e' =>
      rw [hv] at h
      cases h
      exact ⟨(idp, ops), List.mem_cons_self _ _, Or.inl hv⟩
    | ok resolved =>
      rw [hv] at h
      dsimp only at h
      by_cases hm : resolved = r.identity
      · rw [if_pos hm] at h
        cases hg : SMap.get? ops r.operation with
        | none =>
          rw [hg] at h
          exact absurd h (by simp)
        | some res =>
          rw [hg] at h
          obtain ⟨rc, hrc, herr⟩ := variableResourceScan_error p r e res h
          exact ⟨(idp, ops), List.mem_cons_self _ _,
            Or.inr ⟨res, hg, rc, hrc, herr⟩⟩
      · rw [if_neg hm] at h
        obtain ⟨kv, hkv, hcase⟩ := ih h
        exact ⟨kv, List.mem_cons_of_mem _ hkv, hcase⟩

theorem evaluate_error_source (p : Policy) (r : Request) (e : Error)
    (h : p.evaluate r = .error e) :
    p.eval_variable_rules r = .error e := by
  unfold Policy.evaluate at h
  rw [eval_static_spec p r] at h
  cases hs : specStaticPhase p r with
  | deny =>
    rw [hs] at h
    try dsimp only at h
    exact absurd h (by simp)
  | allow =>
    rw [hs] at h
    try dsimp only at h
    cases hv : p.eval_variable_rules r with
    | error e' =>
      rw [hv] at h
      try dsimp only at h
      cases h
      rfl
    | ok ev =>
      rw [hv] at h
      try dsimp only at h
      cases ev <;> exact absurd h (by simp)
  | undefined =>
    rw [hs] at h
    try dsimp only at h
    cases hv : p.eval_variable_rules r with
    | error e' =>
      rw [hv] at h
      try dsimp only at h
      cases h
      rfl
    | ok ev =>
      rw [hv] at h
      try dsimp only at h
      cases ev <;> exact absurd h (by simp)

theorem evaluate_isOk (p : Policy) (r : Request)
    (hid : ∀ v, (p.substituter.visit_identity v r).isOk = true)
    (hres : ∀ v, (p.substituter.visit_resource v r).isOk = true) :
    (p.evaluate r).isOk = true := by
  unfold Policy.evaluate
  rw [eval_static_spec p r]
  have hok := variableIdentityScan_isOk p r hid hres p.variable_rules
  cases hs : specStaticPhase p r with
  | deny => rfl
  | allow =>
    cases hv : p.eval_variable_rules r with
    | error e' =>
      unfold Policy.eval_variable_rules at hv
      rw [hv] at hok
      exact absurd hok (by simp [Except.isOk, Except.toBool])
    | ok ev =>
      cases ev <;> rfl
  | undefined =>
    cases hv : p.eval_variable_rules r with
    | error e' =>
      unfold Policy.eval_variable_rules at hv
      rw [hv] at hok
      exact absurd hok (by simp [Except.isOk, Except.toBool])
    | ok ev =>
      cases ev <;> rfl

theorem findSub_bound {needle hay : List Char} {i : Nat}
    (h : findSub needle hay = some i) : i + needle.length ≤ hay.length := by
  induction hay generalizing i with
  | nil =>
    simp only [findSub] at h
    by_cases he : needle.isEmpty = true
    · rw [if_pos he] at h
      cases h
      rw [List.isEmpty_iff.mp he]
      simp
    · rw [if_neg he] at h
      exact absurd h (by simp)
  | cons c rest ih =>
    simp only [findSub] at h
    by_cases hp : List.isPrefixOf needle (c :: rest) = true
    · rw [if_pos hp] at h
      cases h
      have hpre : needle <+: c :: rest := by
         exact List.isPrefixOf_iff_prefix.mp hp
      simpa using hpre.length_le
    · rw [if_neg hp] at h
      cases hf : findSub needle rest with
      | none =>
        rw [hf] at h
        exact absurd h (by simp)
      | some j =>
        rw [hf] at h
        cases h
        have := ih hf
        simp only [List.length_cons]
        omega

theorem findSub_prefix {needle hay : List Char} {i : Nat}
    (h : findSub needle hay = some i) :
    List.isPrefixOf needle (hay.drop i) = true := by
  induction hay generalizing i with
  | nil =>
    simp only [findSub] at h
    by_cases he : needle.isEmpty = true
    · rw [if_pos he] at h
      cases h
      rw [List.isEmpty_iff.mp he]
      simp
    · rw [if_neg he] at h
      exact absurd h (by simp)
  | cons c rest ih =>
    simp only [findSub] at h
    by_cases hp : List.isPrefixOf needle (c :: rest) = true
    · rw [if_pos hp] at h
      cases h
      simpa using hp
    · rw [if_neg hp] at h
      cases hf : findSub needle rest with
      | none =>
        rw [hf] at h
        exact absurd h (by simp)
      | some j =>
        rw [hf] at h
        cases h
        simpa using ih hf

theorem containsSub_iff (needle hay : List Char) :
    containsSub needle hay = true
      ↔ ∃ i, List.isPrefixOf needle (hay.drop i) = true := by
  unfold containsSub
  constructor
  · intro h
    cases hf : findSub needle hay with
    | none =>
      rw [hf] at h
      exact absurd h (by simp)
    | some i => exact ⟨i, findSub_prefix hf⟩
  · intro ⟨i, hi⟩
    induction hay generalizing i with
    | nil =>
      have : needle.isEmpty = true := by
        cases needle with
        | nil => rfl
        | cons c cs =>
          rw [List.drop_nil] at hi
          exact absurd hi (by simp [List.isPrefixOf])
      simp [findSub, this]
    | cons c rest ih =>
      simp only [findSub]
      by_cases hp : List.isPrefixOf needle (c :: rest) = true
      · rw [if_pos hp]
        rfl
      · rw [if_neg hp]
        cases i with
        | zero =>
          rw [List.drop_zero] at hi
          exact absurd hi hp
        | succ j =>
          rw [List.drop_succ_cons] at hi
          have := ih j hi
          cases hf : findSub needle rest with
          | none =>
            rw [hf] at this
            exact absurd this (by simp)
          | some k => simp [hf]

theorem VariableIter.next_progress {it it' : VariableIter} {v : List Char}
    (h : it.next = some (v, it')) :
    it.index < it'.index ∧ it'.index ≤ it.value.length
      ∧ it'.value = it.value := by
  unfold VariableIter.next at h
  dsimp only at h
  cases hob : findSub obrace (it.value.drop it.index) with
  | none =>
    rw [hob] at h
    exact absurd h (by simp)
  | some start =>
    rw [hob] at h
    dsimp only at h
    cases hcb : findSub cbrace (it.value.drop it.index) with
    | none =>
      rw [hcb] at h
      exact absurd h (by simp)
    | some e =>
      rw [hcb] at h
      dsimp only at h
      by_cases hlt : start < e
      · rw [if_pos hlt] at h
        cases h
        dsimp only
        have hb := findSub_bound hcb
        have hd : (it.value.drop it.index).length = it.value.length - it.index :=
          List.length_drop _ _
      
        refine ⟨by omega, ?_, rfl⟩
        rw [hd] at hb
        have hcl : cbrace.length = 2 := rfl
        rw [hcl] at hb
        omega
      · rw [if_neg hlt] at h
        exact absurd h (by simp)

theorem collectVars_cons {it : VariableIter} {v : List Char}
    {it' : VariableIter} (h : it.next = some (v, it')) :
    collectVars it = v :: collectVars it' := by
  rw [collectVars]
  split
  next v2 it2 heq =>
    rw [h] at heq
    cases heq
    rfl
  next heq =>
    rw [h] at heq
    exact absurd heq (by simp)

theorem collectVars_nil {it : VariableIter} (h : it.next = none) :
    collectVars it = [] := by
  rw [collectVars]
  split
  next v2 it2 heq =>
    rw [h] at heq
    exact absurd heq (by simp)
  next heq => rfl

theorem amendedScan_cons {s : List Char} {start e : Nat}
    (hob : findSub obrace s = some start) (hcb : findSub cbrace s = some e)
    (hlt : start < e) :
    amendedScan s
      = ((s.drop start).take (e + 2 - start)) :: amendedScan (s.drop (e + 2)) := by
  rw [amendedScan]
  split
  next heq =>
    rw [hob] at heq
    exact absurd heq (by simp)
  next start2 heq =>
    rw [hob] at heq
    cases heq
    split
    next heq2 =>
      rw [hcb] at heq2
      exact absurd heq2 (by simp)
    next e2 heq2 =>
      rw [hcb] at heq2
      cases heq2
      rw [if_pos hlt]

theorem amendedScan_nil_noOpen {s : List Char}
    (hob : findSub obrace s = none) : amendedScan s = [] := by
  rw [amendedScan]
  split
  next heq => rfl
  next start2 heq =>
    rw [hob] at heq
    exact absurd heq (by simp)

theorem amendedScan_nil_noClose {s : List Char} {start : Nat}
    (hob : findSub obrace s = some start)
    (hcb : findSub cbrace s = none) : amendedScan s = [] := by
  rw [amendedScan]
  split
  next heq => rfl
  next start2 heq =>
    rw [hob] at heq
    cases heq
    split
    next heq2 => rfl
    next e2 heq2 =>
      rw [hcb] at heq2
      exact absurd heq2 (by simp)

theorem amendedScan_nil_ge {s : List Char} {start e : Nat}
    (hob : findSub obrace s = some start) (hcb : findSub cbrace s = some e)
    (hge : ¬ start < e) : amendedScan s = [] := by
  rw [amendedScan]
  split
  next heq =>
    rw [hob] at heq
  next start2 heq =>
    rw [hob] at heq
    cases heq
    split
    next heq2 => rfl
    next e2 heq2 =>
      rw [hcb] at heq2
      cases heq2
      rw [if_neg hge]

theorem collectVars_eq_amendedScan (it : VariableIter) :
    collectVars it = amendedScan (it.value.drop it.index) := by
  induction it using collectVars.induct with
  | case1 it v it' hnext ih =>
    rw [collectVars_cons hnext, ih]
    have h := hnext
    unfold VariableIter.next at h
    dsimp only at h
    cases hob : findSub obrace (it.value.drop it.index) with
    | none =>
      rw [hob] at h
      exact absurd h (by simp)
    | some start =>
      rw [hob] at h
      dsimp only at h
      cases hcb : findSub cbrace (it.value.drop it.index) with
      | none =>
        rw [hcb] at h
        exact absurd h (by simp)
      | some e =>
        rw [hcb] at h
        dsimp only at h
        by_cases hlt : start < e
        · rw [if_pos hlt] at h
          cases h
          rw [amendedScan_cons hob hcb hlt]
          dsimp only
          have hdrop : it.value.drop (it.index + (e + 2))
              = (it.value.drop it.index).drop (e + 2) := by
            rw [List.drop_drop]
          rw [← Nat.add_assoc] at hdrop
          rw [hdrop]
        · rw [if_neg hlt] at h
          exact absurd h (by simp)
  | case2 it hnone =>
    rw [collectVars_nil hnone]
    have h := hnone
    unfold VariableIter.next at h
    dsimp only at h
    cases hob : findSub obrace (it.value.drop it.index) with
    | none => rw [amendedScan_nil_noOpen hob]
    | some start =>
      rw [hob] at h
      dsimp only at h
      cases hcb : findSub cbrace (it.value.drop it.index) with
      | none => rw [amendedScan_nil_noClose hob hcb]
      | some e =>
        rw [hcb] at h
        dsimp only at h
        by_cases hlt : start < e
        · rw [if_pos hlt] at h
          exact absurd h (by simp)
        · rw [amendedScan_nil_ge hob hcb hlt]

theorem replaceAll_nil (pat sub : List Char) : replaceAll [] pat sub = [] := by
  rw [replaceAll]

theorem replaceAll_pos {c : Char} {rest pat sub : List Char}
    (h : pat ≠ [] ∧ List.isPrefixOf pat (c :: rest) = true) :
    replaceAll (c :: rest) pat sub
      = sub ++ replaceAll ((c :: rest).drop pat.length) pat sub := by
  rw [replaceAll]
  rw [dif_pos h]

theorem replaceAll_neg {c : Char} {rest pat sub : List Char}
    (h : ¬ (pat ≠ [] ∧ List.isPrefixOf pat (c :: rest) = true)) :
    replaceAll (c :: rest) pat sub = c :: replaceAll rest pat sub := by
  rw [replaceAll]
  rw [dif_neg h]

theorem claimScan_cons {s : List Char} {start e : Nat}
    (hob : findSub obrace s = some start)
    (hcb : findSub cbrace (s.drop (start + 2)) = some e) :
    claimScan s
      = ((s.drop start).take (e + 4)) :: claimScan (s.drop (start + 2 + e + 2)) := by
  rw [claimScan]
  split
  next heq =>
    rw [hob] at heq
    exact absurd heq (by simp)
  next start2 heq =>
    rw [hob] at heq
    cases heq
    split
    next heq2 =>
      rw [hcb] at heq2
      exact absurd heq2 (by simp)
    next e2 heq2 =>
      rw [hcb] at heq2
      cases heq2
      rfl

theorem claimScan_nil_noOpen {s : List Char}
    (hob : findSub obrace s = none) : claimScan s = [] := by
  rw [claimScan]
  split
  next heq => rfl
  next start2 heq =>
    rw [hob] at heq
    exact absurd heq (by simp)

theorem claimScan_nil_noClose {s : List Char} {start : Nat}
    (hob : findSub obrace s = some start)
    (hcb : findSub cbrace (s.drop (start + 2)) = none) : claimScan s = [] := by
  rw [claimScan]
  split
  next heq =>
    rw [hob] at heq
  next start2 heq =>
    rw [hob] at heq
    cases heq
    split
    next heq2 => rfl
    next e2 heq2 =>
      rw [hcb] at heq2
      exact absurd heq2 (by simp)

theorem reduceOption_head?_eq_none {α : Type} :
    ∀ {l : List (Option α)}, (∀ x ∈ l, x = none) →
      l.reduceOption.head? = none
  | [], _ => rfl
  | a :: t, h => by
    have ha := h a (List.mem_cons_self _ _)
    subst ha
    rw [List.reduceOption_cons_of_none]
    exact reduceOption_head?_eq_none (fun x hx => h x (List.mem_cons_of_mem _ hx))

theorem reduceOption_head?_isSome {α : Type} :
    ∀ {l : List (Option α)}, (∃ x ∈ l, x.isSome = true) →
      l.reduceOption.head?.isSome = true
  | [], h => by
    obtain ⟨x, hx, -⟩ := h
    exact absurd hx (by simp)
  | some v :: t, _ => by
    rw [List.reduceOption_cons_of_some]
    rfl
  | none :: t, h => by
    rw [List.reduceOption_cons_of_none]
    obtain ⟨x, hx, hs⟩ := h
    cases List.mem_cons.mp hx with
    | inl he => rw [he] at hs; exact absurd hs (by simp)
    | inr ht => exact reduceOption_head?_isSome ⟨x, ht, hs⟩

theorem mem_of_reduceOption_head? {α : Type} {l : List (Option α)} {x : α}
    (h : l.reduceOption.head? = some x) : some x ∈ l := by
  have hx : x ∈ l.reduceOption := by
    cases hr : l.reduceOption with
    | nil => rw [hr] at h; cases h
    | cons a t =>
      rw [hr] at h
      rw [List.head?_cons] at h
      cases h
      exact List.mem_cons_self _ _
  exact List.reduceOption_mem_iff.mp hx

/-- C1: for a policy and request on which both phases return without a
substituter error, `Policy::evaluate` agrees with the reference combine
table over (static effect, variable effect, default decision); moreover on
any policy whose static phase yields Deny the result is Denied outright,
so the variable phase is never consulted (its substituter may even fail). -/
theorem claim1_evaluate_combine (p q : Policy) (r : Request) (es ev : Effect)
    (hs : p.eval_static_rules r = .ok es)
    (hv : p.eval_variable_rules r = .ok ev)
    (hq : q.eval_static_rules r = .ok .deny) :
    p.evaluate r = .ok (specCombine es ev p.default_decision)
      ∧ q.evaluate r = .ok .denied := by
  constructor
  · unfold Policy.evaluate
    rw [hs]
    cases es with
    | deny => rfl
    | allow =>
      rw [hv]
      cases ev <;> rfl
    | undefined =>
      rw [hv]
      cases ev <;> rfl
  · unfold Policy.evaluate
    rw [hq]

theorem claim1_evaluate_combine_witness :
    (PolicyBuilder.build [⟨0, "", .allow, ["actor"], ["write"], ["res"]⟩]
        DefaultResourceMatcher DefaultSubstituter .denied).evaluate
        ⟨"actor", "write", "res"⟩
      = .ok (specCombine .allow .undefined .denied)
    ∧ (PolicyBuilder.build
        [⟨0, "", .deny, ["actor"], ["write"], ["res"]⟩,
         ⟨0, "", .allow, ["\x7b\x7bany\x7d\x7d"], ["write"], ["res"]⟩]
        DefaultResourceMatcher failingSubstituter .denied).evaluate
        ⟨"actor", "write", "res"⟩
      = .ok .denied :=
  claim1_evaluate_combine _ _ _ .allow .undefined rfl rfl rfl

/-- C2: rule compilation assigns priorities as zero-based list positions,
and at every (identity, operation, resource) path each compiled rule map
stores the contribution of the first (lowest-index) statement that defines
the path — so on a conflict the lower-index statement's effect and
priority survive; moreover folding the per-statement fragments in any
other order produces the same pair of rule maps. -/
theorem claim2_priority_merge_order (statements l₂ : List Statement20201030)
    (i o r : String) (hperm : l₂.Perm (withOrders statements)) :
    Identities.find (buildRules statements).1 i o r
      = ((withOrders statements).map
          (fun s => staticContribution s i o r)).reduceOption.head?
    ∧ Identities.find (buildRules statements).2 i o r
      = ((withOrders statements).map
          (fun s => variableContribution s i o r)).reduceOption.head?
    ∧ l₂.foldl (fun acc s => process_statement s acc) ([], [])
        = buildRules statements := by
  refine ⟨(buildRules_find statements i o r).1,
    (buildRules_find statements i o r).2, ?_⟩
  have h1 : List.Pairwise (fun a b => a.order ≠ b.order)
      (withOrders statements) :=
    List.Pairwise.imp (fun hab => Nat.ne_of_lt hab) (withOrders_lt statements)
  have hord : List.Pairwise (fun a b => a.order ≠ b.order) l₂ :=
    (List.Perm.pairwise_iff (fun h he => h he.symm) hperm).mpr h1
  rw [buildRules]
  exact buildFold_perm hperm hord ([], []) emptyIdentitiesWF emptyIdentitiesWF
    emptyIdentitiesNE emptyIdentitiesNE

theorem claim2_priority_merge_order_witness :
    Identities.find
        (buildRules [⟨7, "", .allow, ["actor"], ["write"], ["res"]⟩,
          ⟨3, "", .deny, ["actor"], ["write"], ["res"]⟩]).1
        "actor" "write" "res"
      = ((withOrders [⟨7, "", .allow, ["actor"], ["write"], ["res"]⟩,
          ⟨3, "", .deny, ["actor"], ["write"], ["res"]⟩]).map
          (fun s => staticContribution s "actor" "write" "res")).reduceOption.head?
    ∧ Identities.find
        (buildRules [⟨7, "", .allow, ["actor"], ["write"], ["res"]⟩,
          ⟨3, "", .deny, ["actor"], ["write"], ["res"]⟩]).2
        "actor" "write" "res"
      = ((withOrders [⟨7, "", .allow, ["actor"], ["write"], ["res"]⟩,
          ⟨3, "", .deny, ["actor"], ["write"], ["res"]⟩]).map
          (fun s => variableContribution s "actor" "write" "res")).reduceOption.head?
    ∧ [⟨1, "", .deny, ["actor"], ["write"], ["res"]⟩,
        ⟨0, "", .allow, ["actor"], ["write"], ["res"]⟩].foldl
          (fun acc s => process_statement s acc) ([], [])
        = buildRules [⟨7, "", .allow, ["actor"], ["write"], ["res"]⟩,
          ⟨3, "", .deny, ["actor"], ["write"], ["res"]⟩] :=
  claim2_priority_merge_order
    [⟨7, "", .allow, ["actor"], ["write"], ["res"]⟩,
      ⟨3, "", .deny, ["actor"], ["write"], ["res"]⟩]
    [⟨1, "", .deny, ["actor"], ["write"], ["res"]⟩,
      ⟨0, "", .allow, ["actor"], ["write"], ["res"]⟩]
    "actor" "write" "res" (by decide)

/-- C3: every path stored in the compiled static rule map has all three of
its identity, operation and resource patterns static; and a statement
whose identity pattern is variable has each of its operation/resource
combinations reachable under that identity in the variable rule map and
never in the static one. -/
theorem claim3_static_invariant (statements : List Statement20201030)
    (i o r : String) (eo : EffectOrd) (s : Statement20201030)
    (id op res : String)
    (hfind : Identities.find (buildRules statements).1 i o r = some eo)
    (hs : s ∈ withOrders statements) (hid : id ∈ s.identities)
    (hvar : is_variable_rule id = true)
    (hop : op ∈ s.operations) (hres : res ∈ s.resources) :
    (is_variable_rule i = false ∧ is_variable_rule o = false
      ∧ is_variable_rule r = false)
    ∧ (Identities.find (buildRules statements).2 id op res).isSome = true
    ∧ Identities.find (buildRules statements).1 id op res = none := by
  refine ⟨?_, ?_, ?_⟩
  · have h1 := (buildRules_find statements i o r).1
    rw [hfind] at h1
    have hmem : some eo ∈ (withOrders statements).map
        (fun s => staticContribution s i o r) :=
      mem_of_reduceOption_head? h1.symm
    obtain ⟨s', hs', hc⟩ := List.mem_map.mp hmem
    unfold staticContribution at hc
    have h := (staticFrag_find s' i o r eo).mp hc
    exact ⟨h.2.1, h.2.2.2.1, h.2.2.2.2.2.1⟩
  · rw [(buildRules_find statements id op res).2]
    apply reduceOption_head?_isSome
    refine ⟨variableContribution s id op res,
      List.mem_map.mpr ⟨s, hs, rfl⟩, ?_⟩
    have hv : variableContribution s id op res = some s.effectOrd := by
      unfold variableContribution
      exact (varFrag_find s id op res s.effectOrd).mpr
        ⟨hid, hop, hres, Or.inl hvar, rfl⟩
    rw [hv]
    rfl
  · rw [(buildRules_find statements id op res).1]
    apply reduceOption_head?_eq_none
    intro x hx
    obtain ⟨s', hs', hc⟩ := List.mem_map.mp hx
    cases x with
    | none => rfl
    | some eo' =>
      exfalso
      rw [← hc] at hx
      unfold staticContribution at hc
      have h := (staticFrag_find s' id op res eo').mp hc
      rw [h.2.1] at hvar
      exact absurd hvar (by simp)

theorem claim3_static_invariant_witness :
    (is_variable_rule "actor" = false ∧ is_variable_rule "write" = false
      ∧ is_variable_rule "res" = false)
    ∧ (Identities.find
        (buildRules [⟨0, "", .allow, ["actor"], ["write"], ["res"]⟩,
          ⟨0, "", .deny, ["\x7b\x7bany\x7d\x7d"], ["read"], ["res2"]⟩]).2
        "\x7b\x7bany\x7d\x7d" "read" "res2").isSome = true
    ∧ Identities.find
        (buildRules [⟨0, "", .allow, ["actor"], ["write"], ["res"]⟩,
          ⟨0, "", .deny, ["\x7b\x7bany\x7d\x7d"], ["read"], ["res2"]⟩]).1
        "\x7b\x7bany\x7d\x7d" "read" "res2" = none :=
  claim3_static_invariant
    [⟨0, "", .allow, ["actor"], ["write"], ["res"]⟩,
      ⟨0, "", .deny, ["\x7b\x7bany\x7d\x7d"], ["read"], ["res2"]⟩]
    "actor" "write" "res" ⟨0, .allow⟩
    ⟨1, "", .deny, ["\x7b\x7bany\x7d\x7d"], ["read"], ["res2"]⟩
    "\x7b\x7bany\x7d\x7d" "read" "res2"
    (by decide) (by decide) (by decide) (by decide) (by decide) (by decide)

/-- C4 counterexample: the claim classifies a pattern with an opening but
no closing delimiter as static, yet `is_variable_rule` (which only tests
`contains` of the opening delimiter) classifies it variable: so the claimed
equivalence with "contains a marker delimited by both delimiters" fails on
the pattern `a` followed by two opening braces and `b`. -/
theorem claim4_counterexample :
    is_variable_rule "a\x7b\x7bb" = true
      ∧ containsMarker "a\x7b\x7bb" = false := by
  decide

/-- C4 (amended): the compile-time classifier treats a pattern as variable
if and only if the pattern contains the two-character opening delimiter
somewhere; the closing delimiter is never examined. -/
theorem claim4_amended_classifier (value : String) :
    is_variable_rule value = true
      ↔ ∃ i, List.isPrefixOf obrace (value.data.drop i) = true := by
  unfold is_variable_rule
  exact containsSub_iff obrace value.data

/-- C5: the static phase of evaluation on a compiled policy equals the
reference algorithm (identity lookup, then operation lookup, then the
first resource pattern in stored order accepted by the matcher, each miss
giving Undefined); and in a compiled policy every resource sub-map of the
static index is strictly sorted by the string order, so stored order is
lexicographic key order and the lexicographically first match wins. -/
theorem claim5_static_phase (statements : List Statement20201030)
    (matcher : Request → String → String → Bool) (substituter : Substituter)
    (dd : Decision) (r : Request) (i o : String) (ops : Operations)
    (res : Resources)
    (hops : SMap.get?
      (PolicyBuilder.build statements matcher substituter dd).static_rules i
      = some ops)
    (hres : SMap.get? ops o = some res) :
    (PolicyBuilder.build statements matcher substituter dd).eval_static_rules r
      = .ok (specStaticPhase
          (PolicyBuilder.build statements matcher substituter dd) r)
    ∧ SMap.Sorted res := by
  constructor
  · exact eval_static_spec _ r
  · have hwf := (build_policy_wf statements matcher substituter dd).1
    have hops_wf := hwf.2 (i, ops) (SMap.get?_mem hops)
    exact hops_wf.2 (o, res) (SMap.get?_mem hres)

theorem claim5_static_phase_witness :
    (PolicyBuilder.build
        [⟨0, "", .allow, ["actor"], ["write"], ["res1", "res2"]⟩]
        DefaultResourceMatcher DefaultSubstituter .denied).eval_static_rules
        ⟨"actor", "write", "res2"⟩
      = .ok (specStaticPhase
          (PolicyBuilder.build
            [⟨0, "", .allow, ["actor"], ["write"], ["res1", "res2"]⟩]
            DefaultResourceMatcher DefaultSubstituter .denied)
          ⟨"actor", "write", "res2"⟩)
    ∧ SMap.Sorted [("res1", (⟨0, .allow⟩ : EffectOrd)), ("res2", ⟨0, .allow⟩)] :=
  claim5_static_phase
    [⟨0, "", .allow, ["actor"], ["write"], ["res1", "res2"]⟩]
    DefaultResourceMatcher DefaultSubstituter .denied
    ⟨"actor", "write", "res2"⟩ "actor" "write"
    [("write", [("res1", ⟨0, .allow⟩), ("res2", ⟨0, .allow⟩)])]
    [("res1", ⟨0, .allow⟩), ("res2", ⟨0, .allow⟩)]
    (by decide) (by decide)

/-- C6: for a substituter whose visit methods behave as the pure functions
`vid`/`vres` on the given request, the variable phase of evaluation on a
compiled policy equals the reference algorithm: the first identity key (in
stored order) whose resolution equals the request identity fully
determines the result, the operation is looked up by its raw key, the
resource sub-map is scanned with resolution applied before matching, every
miss gives Undefined; and the compiled variable index is strictly sorted,
so stored order is lexicographic key order. -/
theorem claim6_variable_phase (statements : List Statement20201030)
    (matcher : Request → String → String → Bool) (substituter : Substituter)
    (dd : Decision) (r : Request) (vid vres : String → String)
    (hid : ∀ v, substituter.visit_identity v r = .ok (vid v))
    (hres : ∀ v, substituter.visit_resource v r = .ok (vres v)) :
    (PolicyBuilder.build statements matcher substituter dd).eval_variable_rules r
      = .ok (specVariablePhase
          (PolicyBuilder.build statements matcher substituter dd) r vid vres)
    ∧ SMap.Sorted
        (PolicyBuilder.build statements matcher substituter dd).variable_rules := by
  constructor
  · exact eval_variable_spec _ r vid vres hid hres
  · exact (build_policy_wf statements matcher substituter dd).2.1

theorem claim6_variable_phase_witness :
    (PolicyBuilder.build
        [⟨0, "", .allow, ["\x7b\x7bidentity\x7d\x7d"], ["write"], ["res"]⟩]
        DefaultResourceMatcher DefaultSubstituter .denied).eval_variable_rules
        ⟨"alice", "write", "res"⟩
      = .ok (specVariablePhase
          (PolicyBuilder.build
            [⟨0, "", .allow, ["\x7b\x7bidentity\x7d\x7d"], ["write"], ["res"]⟩]
            DefaultResourceMatcher DefaultSubstituter .denied)
          ⟨"alice", "write", "res"⟩
          (fun v => String.mk (replace_identity v.data ⟨"alice", "write", "res"⟩))
          (fun v => String.mk (replace_resource v.data ⟨"alice", "write", "res"⟩)))
    ∧ SMap.Sorted
        (PolicyBuilder.build
          [⟨0, "", .allow, ["\x7b\x7bidentity\x7d\x7d"], ["write"], ["res"]⟩]
          DefaultResourceMatcher DefaultSubstituter .denied).variable_rules :=
  claim6_variable_phase
    [⟨0, "", .allow, ["\x7b\x7bidentity\x7d\x7d"], ["write"], ["res"]⟩]
    DefaultResourceMatcher DefaultSubstituter .denied
    ⟨"alice", "write", "res"⟩ _ _ (fun v => rfl) (fun v => rfl)

/-- C7: with a substituter whose visit methods never fail on the request,
`Policy::evaluate` always returns Ok (the matcher cannot cause failure);
and whenever `Policy::evaluate` returns an error, that error was returned
by a substituter call made during the variable scan — `visit_identity` on
an identity key of the variable rules, or `visit_resource` on a candidate
resource pattern reached under the request's operation. -/
theorem claim7_error_semantics (p q : Policy) (r : Request) (e : Error)
    (hid : ∀ v, (p.substituter.visit_identity v r).isOk = true)
    (hres : ∀ v, (p.substituter.visit_resource v r).isOk = true)
    (hq : q.evaluate r = .error e) :
    (p.evaluate r).isOk = true
    ∧ ∃ kv ∈ q.variable_rules,
        q.substituter.visit_identity kv.1 r = .error e
        ∨ ∃ res, SMap.get? kv.2 r.operation = some res
            ∧ ∃ rc ∈ res, q.substituter.visit_resource rc.1 r = .error e :=
  ⟨evaluate_isOk p r hid hres,
    variableIdentityScan_error q r e q.variable_rules
      (evaluate_error_source q r e hq)⟩

theorem claim7_error_semantics_witness :
    ((PolicyBuilder.build [⟨0, "", .allow, ["actor"], ["write"], ["res"]⟩]
        DefaultResourceMatcher DefaultSubstituter .denied).evaluate
        ⟨"actor", "write", "res"⟩).isOk = true
    ∧ ∃ kv ∈ (PolicyBuilder.build
          [⟨0, "", .allow, ["\x7b\x7bany\x7d\x7d"], ["write"], ["res"]⟩]
          DefaultResourceMatcher failingSubstituter .denied).variable_rules,
        (PolicyBuilder.build
          [⟨0, "", .allow, ["\x7b\x7bany\x7d\x7d"], ["write"], ["res"]⟩]
          DefaultResourceMatcher failingSubstituter .denied).substituter.visit_identity
            kv.1 ⟨"actor", "write", "res"⟩
          = .error (.validationError "substitution failed")
        ∨ ∃ res, SMap.get? kv.2 "write" = some res
            ∧ ∃ rc ∈ res,
              (PolicyBuilder.build
                [⟨0, "", .allow, ["\x7b\x7bany\x7d\x7d"], ["write"], ["res"]⟩]
                DefaultResourceMatcher failingSubstituter .denied).substituter.visit_resource
                  rc.1 ⟨"actor", "write", "res"⟩
                = .error (.validationError "substitution failed") :=
  claim7_error_semantics _ _ ⟨"actor", "write", "res"⟩
    (.validationError "substitution failed")
    (fun v => rfl) (fun v => rfl) rfl

/-- C8: `Request::new` fails exactly when the identity or the operation
string is empty (an empty resource is accepted), and on success the
constructed request holds the three given strings unchanged. -/
theorem claim8_request_validation (i o r : String) :
    ((∃ e, Request.new i o r = .error e) ↔ (i = "" ∨ o = ""))
    ∧ (i ≠ "" → o ≠ "" → Request.new i o r = .ok ⟨i, o, r⟩) := by
  constructor
  · constructor
    · rintro ⟨e, he⟩
      unfold Request.new at he
      by_cases hi : i.isEmpty = true
      · exact Or.inl ((String.isEmpty_iff i).mp hi)
      · by_cases ho : o.isEmpty = true
        · exact Or.inr ((String.isEmpty_iff o).mp ho)
        · rw [if_neg hi, if_neg ho] at he
          cases he
    · intro h
      unfold Request.new
      cases h with
      | inl hi =>
        rw [if_pos ((String.isEmpty_iff i).mpr hi)]
        exact ⟨_, rfl⟩
      | inr ho =>
        by_cases hi : i.isEmpty = true
        · rw [if_pos hi]
          exact ⟨_, rfl⟩
        · rw [if_neg hi, if_pos ((String.isEmpty_iff o).mpr ho)]
          exact ⟨_, rfl⟩
  · intro hi ho
    unfold Request.new
    rw [if_neg (fun h => hi ((String.isEmpty_iff i).mp h)),
      if_neg (fun h => ho ((String.isEmpty_iff o).mp h))]

theorem claim8_request_validation_witness :
    ((∃ e, Request.new "" "write" "res" = .error e)
        ↔ ("" = "" ∨ "write" = ""))
    ∧ ("" ≠ "" → "write" ≠ "" →
        Request.new "" "write" "res" = .ok ⟨"", "write", "res"⟩) :=
  claim8_request_validation "" "write" "res"

/-- C9 counterexample: on the pattern consisting of a closing delimiter
followed by the "any" marker, the default substituter's `visit_resource`
returns the pattern unchanged — the recognized marker is skipped because
the iterator pairs the opening delimiter with the first closing delimiter
of the whole suffix, which lies before it — while the claimed lazy
left-to-right scan finds the marker and replaces it with the request's
resource. -/
theorem claim9_counterexample :
    DefaultSubstituter.visit_resource "\x7d\x7d\x7b\x7bany\x7d\x7d"
        ⟨"actor", "write", "res"⟩
      = .ok "\x7d\x7d\x7b\x7bany\x7d\x7d"
    ∧ claimReplaceResource ("\x7d\x7d\x7b\x7bany\x7d\x7d" : String).data
        ⟨"actor", "write", "res"⟩
      = ("\x7d\x7dres" : String).data
    ∧ ("\x7d\x7d\x7b\x7bany\x7d\x7d" : String) ≠ "\x7d\x7dres" := by
  have hnil : collectVars ⟨("\x7d\x7d\x7b\x7bany\x7d\x7d" : String).data, 0⟩
      = [] := collectVars_nil (by decide)
  refine ⟨?_, ?_, by decide⟩
  · show Except.ok (String.mk (replace_resource
        ("\x7d\x7d\x7b\x7bany\x7d\x7d" : String).data
        ⟨"actor", "write", "res"⟩)) = _
    unfold replace_resource
    rw [hnil]
    rfl
  · have hob : findSub obrace ("\x7d\x7d\x7b\x7bany\x7d\x7d" : String).data
        = some 2 := by decide
    have hcb : findSub cbrace
        (("\x7d\x7d\x7b\x7bany\x7d\x7d" : String).data.drop (2 + 2))
        = some 3 := by decide
    have hrest : findSub obrace
        (("\x7d\x7d\x7b\x7bany\x7d\x7d" : String).data.drop (2 + 2 + 3 + 2))
        = none := by decide
    have hscan : claimScan ("\x7d\x7d\x7b\x7bany\x7d\x7d" : String).data
        = [ANY_VAR] := by
      rw [claimScan_cons hob hcb, claimScan_nil_noOpen hrest]
      decide
    unfold claimReplaceResource
    rw [hscan]
    show resourceStep ⟨"actor", "write", "res"⟩
        ("\x7d\x7d\x7b\x7bany\x7d\x7d" : String).data ANY_VAR = _
    unfold resourceStep
    rw [if_pos rfl]
    have hc : ("\x7d\x7d\x7b\x7bany\x7d\x7d" : String).data
        = '\x7d' :: '\x7d' :: '\x7b' :: '\x7b' :: 'a' :: 'n' :: 'y'
          :: '\x7d' :: '\x7d' :: [] := rfl
    rw [hc]
    rw [replaceAll_neg (by decide), replaceAll_neg (by decide),
      replaceAll_pos (by decide)]
    have hd : (('\x7b' :: '\x7b' :: 'a' :: 'n' :: 'y' :: '\x7d' :: '\x7d'
        :: []).drop ANY_VAR.length) = ([] : List Char) := by decide
    rw [hd, replaceAll_nil]
    decide

/-- C9 (amended): the default substituter's visit methods replace, in the
spans produced by the iterator's scan, every occurrence of every marker
they recognize by the corresponding request field, and leave other spans
verbatim; but the scan is not the claimed lazy scan: at each step it
locates the first opening and the first closing delimiter of the whole
unscanned suffix, yields the span between them only when the opening one
comes first, and otherwise ends the scan — so a recognized marker preceded
by a stray closing delimiter in the same suffix is not found. -/
theorem claim9_amended_substituter (value : String) (context : Request) :
    collectVars ⟨value.data, 0⟩ = amendedScan value.data
    ∧ DefaultSubstituter.visit_identity value context
        = .ok (String.mk
            ((amendedScan value.data).foldl (identityStep context) value.data))
    ∧ DefaultSubstituter.visit_operation value context
        = .ok (String.mk
            ((amendedScan value.data).foldl (operationStep context) value.data))
    ∧ DefaultSubstituter.visit_resource value context
        = .ok (String.mk
            ((amendedScan value.data).foldl (resourceStep context) value.data)) := by
  have hscan : collectVars ⟨value.data, 0⟩ = amendedScan value.data := by
    have h := collectVars_eq_amendedScan ⟨value.data, 0⟩
    rw [List.drop_zero] at h
    exact h
  refine ⟨hscan, ?_, ?_, ?_⟩
  · show Except.ok (String.mk (replace_identity value.data context)) = _
    unfold replace_identity
    rw [hscan]
    rfl
  · show Except.ok (String.mk (replace_operation value.data context)) = _
    unfold replace_operation
    rw [hscan]
    rfl
  · show Except.ok (String.mk (replace_resource value.data context)) = _
    unfold replace_resource
    rw [hscan]
    rfl

/-- C10: a step of `VariableIter` that yields an item strictly advances
the scan index, keeps it within the bounds of the scanned string and
leaves the string itself unchanged (so iteration terminates and never
slices out of bounds); and the default substituter's three visit methods
are total, always returning Ok. -/
theorem claim10_iterator_safety (it it' : VariableIter) (v : List Char)
    (h : it.next = some (v, it')) (value : String) (context : Request) :
    (it.index < it'.index ∧ it'.index ≤ it.value.length
      ∧ it'.value = it.value)
    ∧ (∃ s₁, DefaultSubstituter.visit_identity value context = .ok s₁)
    ∧ (∃ s₂, DefaultSubstituter.visit_operation value context = .ok s₂)
    ∧ (∃ s₃, DefaultSubstituter.visit_resource value context = .ok s₃) :=
  ⟨VariableIter.next_progress h, ⟨_, rfl⟩, ⟨_, rfl⟩, ⟨_, rfl⟩⟩

theorem claim10_iterator_safety_witness :
    ((⟨("\x7b\x7bany\x7d\x7d" : String).data, 0⟩ : VariableIter).index
        < (⟨("\x7b\x7bany\x7d\x7d" : String).data, 7⟩ : VariableIter).index
      ∧ (⟨("\x7b\x7bany\x7d\x7d" : String).data, 7⟩ : VariableIter).index
          ≤ (⟨("\x7b\x7bany\x7d\x7d" : String).data, 0⟩ : VariableIter).value.length
      ∧ (⟨("\x7b\x7bany\x7d\x7d" : String).data, 7⟩ : VariableIter).value
          = (⟨("\x7b\x7bany\x7d\x7d" : String).data, 0⟩ : VariableIter).value)
    ∧ (∃ s₁, DefaultSubstituter.visit_identity "pat" ⟨"actor", "write", "res"⟩
        = .ok s₁)
    ∧ (∃ s₂, DefaultSubstituter.visit_operation "pat" ⟨"actor", "write", "res"⟩
        = .ok s₂)
    ∧ (∃ s₃, DefaultSubstituter.visit_resource "pat" ⟨"actor", "write", "res"⟩
        = .ok s₃) :=
  claim10_iterator_safety ⟨("\x7b\x7bany\x7d\x7d" : String).data, 0⟩
    ⟨("\x7b\x7bany\x7d\x7d" : String).data, 7⟩ ANY_VAR (by decide)
    "pat" ⟨"actor", "write", "res"⟩
